import Mathlib

/-!
# Practice peephole pass: division by the constant one

A shallow embedding of `llvm/lib/Transforms/Practice/practice.cpp`.

The pass walks the instructions of one function once.  Every instruction that
is a binary `sdiv`/`udiv` whose operand 1 is a `ConstantInt` equal to one has
its uses replaced by `getOperand(1)` and is erased from its parent.

The IR classes the pass calls into (`Value`, `Instruction`, `ConstantInt`,
`replaceAllUsesWith`, `eraseFromParent`, `use_empty`, the instruction iterator)
live in headers outside `src/`; they are modelled here from the data model of
the specification.  The functions of `practice.cpp` itself are translated
line by line.
-/

namespace Practice

/-! ## Data model -/

/-- Modelled from the spec: the opcode of an instruction (`Instruction::getOpcode`,
declared outside `src/`).  The pass only tells signed and unsigned integer
division from everything else; `Add` is named for the scenarios and every
other operation kind is `other code`. -/
inductive Opcode where
  | SDiv
  | UDiv
  | Add
  | other (code : Nat)
deriving DecidableEq

/-- Modelled from the spec: an integer literal with a fixed bit width
(`ConstantInt`, declared outside `src/`).  `value` is the bit pattern, read
modulo `2 ^ width`. -/
structure ConstantInt where
  width : Nat
  value : Nat
deriving DecidableEq

/-- Modelled from the spec: `ConstantInt::isOne`, the numeric value of the
literal is exactly one at its bit width. -/
def ConstantInt.isOne (c : ConstantInt) : Bool :=
  c.value % 2 ^ c.width == 1

/-- Modelled from the spec: the two's-complement all-ones literal (`-1`) of the
given bit width. -/
def ConstantInt.allOnes (width : Nat) : ConstantInt :=
  ⟨width, 2 ^ width - 1⟩

/-- Modelled from the spec: an operand is a reference to another instruction's
result or a literal constant; function inputs and constants that are not
integer literals are the two remaining kinds of `Value`. -/
inductive Value where
  | inst (id : Nat)
  | constInt (c : ConstantInt)
  | argument (n : Nat)
  | otherConst (n : Nat)
deriving DecidableEq

/-- Modelled from the spec: an instruction is a node with an identity, an
opcode and an ordered list of operand references. -/
structure Instruction where
  id : Nat
  opcode : Opcode
  operands : List Value
deriving DecidableEq

/-- Modelled from the spec: a function is the ordered sequence of its
instructions, in the order in which `inst_iterator` visits them. -/
abbrev Function := List Instruction

/-- Modelled from the spec: `Instruction::getNumOperands`. -/
def Instruction.getNumOperands (instruction : Instruction) : Nat :=
  instruction.operands.length

/-- Modelled from the spec: `Instruction::getOperand`; an index past the
operand list has no result. -/
def Instruction.getOperand (instruction : Instruction) (i : Nat) : Option Value :=
  instruction.operands[i]?

/-- Modelled from the spec: the use edges of a value are the operand slots of
the function's instructions that hold it; `use_empty` says there is none. -/
def use_empty (function : Function) (id : Nat) : Bool :=
  function.all fun user => user.operands.all fun v => v != Value.inst id

/-- Replace one operand slot: a slot holding the result of `old` now holds `new`. -/
def replaceUse (old : Nat) (new : Value) (v : Value) : Value :=
  if v = Value.inst old then new else v

/-- Rewrite the operand list of one user. -/
def replaceUsesIn (old : Nat) (new : Value) (user : Instruction) : Instruction :=
  ⟨user.id, user.opcode, user.operands.map (replaceUse old new)⟩

/-- Modelled from the spec: `Value::replaceAllUsesWith`, the global
replace-all-uses operation: every operand slot of every instruction that
refers to the result of `old` is redirected to `new`. -/
def replaceAllUsesWith (function : Function) (old : Nat) (new : Value) : Function :=
  function.map (replaceUsesIn old new)

/-- Modelled from the spec: `Instruction::eraseFromParent` for the instruction
at position `ii` of the sequence. -/
def eraseFromParent (function : Function) (ii : Nat) : Function :=
  function.eraseIdx ii

/-! ## The pass (`practice.cpp`) -/

/-- `Practice::isOne`: the operand is a `ConstantInt` and it is one. -/
def isOne : Value → Bool
  | Value.constInt constant => constant.isOne
  | _ => false

/-- `Practice::isTrivial`: operand 1 is one. -/
def isTrivial (instruction : Instruction) : Option Bool :=
  (instruction.getOperand 1).map isOne

/-- `Practice::isBinaryDiv`. -/
def isBinaryDiv (instruction : Instruction) : Bool :=
  (instruction.opcode == Opcode.SDiv || instruction.opcode == Opcode.UDiv)
    && instruction.getNumOperands == 2

/-- `Practice::isTrivialDiv`; `&&` evaluates `isTrivial` only for a binary division. -/
def isTrivialDiv (instruction : Instruction) : Option Bool :=
  if isBinaryDiv instruction then isTrivial instruction else some false

/-- `Practice::replaceWithArgument`: all uses of the instruction are replaced
by its operand 1. -/
def replaceWithArgument (function : Function) (instruction : Instruction) : Option Function :=
  (instruction.getOperand 1).map fun rhs => replaceAllUsesWith function instruction.id rhs

/-- The loop of `Practice::runOnFunction`.  `ii` is the position of the
iterator in the current instruction sequence; the iterator is advanced before
the instruction is touched, so after an erase the same position holds the
next instruction.  `fuel` bounds the number of visits. -/
def loop : Nat → Function → Nat → Bool → Option (Function × Bool)
  | fuel, function, ii, changed =>
    match function[ii]? with
    | none => some (function, changed)
    | some instruction =>
      match fuel with
      | 0 => none
      | fuel + 1 =>
        match isTrivialDiv instruction with
        | none => none
        | some false => loop fuel function (ii + 1) changed
        | some true =>
          match (if use_empty function instruction.id then some function
                 else replaceWithArgument function instruction) with
          | none => none
          | some function1 => loop fuel (eraseFromParent function1 ii) ii true

/-- `Practice::runOnFunction`: the rewritten instruction sequence and the
`changed` flag. -/
def runOnFunction (function : Function) : Option (Function × Bool) :=
  loop function.length function 0 false

/-! ## Scenarios of the specification -/

/-- The 32-bit literal `1`. -/
def one32 : Value := Value.constInt ⟨32, 1⟩

/-- Scenario A: `%r = udiv i32 %x, 1 ; %s = add i32 %r, %y`
(`%x`, `%y` are arguments 0 and 1, `%r`, `%s` are instructions 0 and 1). -/
def scenarioA : Function :=
  [⟨0, Opcode.UDiv, [Value.argument 0, one32]⟩,
   ⟨1, Opcode.Add, [Value.inst 0, Value.argument 1]⟩]

/-! ## Specification vocabulary -/

/-- An eligible division in the words of the specification: the opcode is
signed or unsigned division, there are exactly two operands, and the second
operand is an integer literal whose value is one. -/
def eligible (instruction : Instruction) : Bool :=
  (instruction.opcode == Opcode.SDiv || instruction.opcode == Opcode.UDiv)
    && instruction.operands.length == 2
    && (match instruction.operands[1]? with
        | some (Value.constInt c) => c.isOne
        | _ => false)

/-- The identities of the instructions of a function, in order. -/
def ids (function : Function) : List Nat :=
  function.map Instruction.id

/-- The identity of an instruction has been removed by the pass: it names an
instruction of the input `f` and no instruction of the output `g`. -/
def removed (f g : Function) (k : Nat) : Prop :=
  k ∈ ids f ∧ k ∉ ids g

/-- Every operand that refers to an instruction refers to an instruction of
the function (the other operands are constants and function inputs). -/
def closed (function : Function) : Prop :=
  ∀ I ∈ function, ∀ k, Value.inst k ∈ I.operands → k ∈ ids function

/-- Definitions come before uses in the instruction order: no instruction has
its own result, or the result of an instruction after it, as an operand. -/
def defsBeforeUses : Function → Prop
  | [] => True
  | I :: rest => (∀ J ∈ I :: rest, Value.inst J.id ∉ I.operands) ∧ defsBeforeUses rest

/-- No binary division has the result of a binary division that comes later
in the instruction order in its divisor slot (operand 1). -/
def noForwardDivisor : Function → Prop
  | [] => True
  | I :: rest =>
    (isBinaryDiv I = true → ∀ J ∈ rest, isBinaryDiv J = true →
      I.getOperand 1 ≠ some (Value.inst J.id)) ∧ noForwardDivisor rest

/-- A run-time value: the result of an instruction or a function input, not a
compile-time constant. -/
def isRunTime : Value → Bool
  | Value.inst _ => true
  | Value.argument _ => true
  | _ => false

/-- How an operand slot of a surviving instruction relates to the slot on
input: it holds the same operand, or it referred to a removed instruction
and now holds a literal one. -/
def redirected (f g : Function) (w w1 : Value) : Prop :=
  w1 = w ∨ ∃ k c, w = Value.inst k ∧ removed f g k ∧ w1 = Value.constInt c ∧ c.isOne = true

/-- The instruction `E` of the input `f` is present in `g`: same identity,
same opcode, and operand slots related by `redirected`. -/
def survives (f g : Function) (E : Instruction) : Prop :=
  ∃ E1 ∈ g, E1.id = E.id ∧ E1.opcode = E.opcode ∧
    List.Forall₂ (redirected f g) E.operands E1.operands

/-- The instruction `E` of the input `f` is absent from `g`, and it was a
binary division whose divisor was a literal one or the result of a removed
instruction. -/
def erasedAsTrivial (f g : Function) (E : Instruction) : Prop :=
  E.id ∉ ids g ∧ (E.opcode = Opcode.SDiv ∨ E.opcode = Opcode.UDiv) ∧
    E.operands.length = 2 ∧
    ∃ v, E.operands[1]? = some v ∧
      ((∃ c, v = Value.constInt c ∧ c.isOne = true) ∨ ∃ k, v = Value.inst k ∧ removed f g k)

/-- Two instructions with the same identity, opcode and number of operands. -/
def sameShape (I J : Instruction) : Prop :=
  J.id = I.id ∧ J.opcode = I.opcode ∧ J.operands.length = I.operands.length

/-- The operand a slot holds after the pass, given the literal `lit k` that
took the place of each removed instruction `k`: a reference to a removed
instruction becomes that literal, every other operand stays. -/
def resolve (lit : Nat → ConstantInt) (f g : Function) : Value → Value
  | Value.inst k => if k ∈ ids f ∧ k ∉ ids g then Value.constInt (lit k) else Value.inst k
  | w => w

/-- The instruction `E` of the input `f` is present in `g` with its identity,
its opcode and its operand slots resolved. -/
def keptAs (lit : Nat → ConstantInt) (f g : Function) (E : Instruction) : Prop :=
  ∃ E1 ∈ g, E1.id = E.id ∧ E1.opcode = E.opcode ∧
    E1.operands = E.operands.map (resolve lit f g)

/-- The instruction `E` of the input `f` is absent from `g`; it is a binary
division whose second operand, once resolved, is the literal one `lit E.id`
that took its place. -/
def erasedWith (lit : Nat → ConstantInt) (f g : Function) (E : Instruction) : Prop :=
  E.id ∉ ids g ∧ (E.opcode = Opcode.SDiv ∨ E.opcode = Opcode.UDiv) ∧
    E.operands.length = 2 ∧ (lit E.id).isOne = true ∧
    (E.operands.map (resolve lit f g))[1]? = some (Value.constInt (lit E.id))

/-! ## Fixed-width integer semantics -/

/-- Modelled from the spec: the signed reading of a `w`-bit pattern. -/
def toSigned (w n : Nat) : Int :=
  if 2 * (n % 2 ^ w) < 2 ^ w then ((n % 2 ^ w : Nat) : Int)
  else ((n % 2 ^ w : Nat) : Int) - ((2 ^ w : Nat) : Int)

/-- Modelled from the spec: the value of a binary operation on `w`-bit
integers; division by zero and signed overflow have no value. -/
def evalBinary (w : Nat) : Opcode → Nat → Nat → Option Nat
  | Opcode.Add, a, b => some ((a + b) % 2 ^ w)
  | Opcode.UDiv, a, b => if b % 2 ^ w = 0 then none else some (a % 2 ^ w / (b % 2 ^ w))
  | Opcode.SDiv, a, b =>
    if toSigned w b = 0 then none
    else if toSigned w a = -((2 ^ (w - 1) : Nat) : Int) ∧ toSigned w b = -1 then none
    else some ((Int.tdiv (toSigned w a) (toSigned w b)) % ((2 ^ w : Nat) : Int)).toNat
  | Opcode.other _, _, _ => none

/-- Modelled from the spec: the value of an operand, given the run-time inputs
and the values of the instructions evaluated so far. -/
def evalValue (w : Nat) (args : Nat → Nat) (env : List (Nat × Nat)) : Value → Option Nat
  | Value.inst k => env.lookup k
  | Value.constInt c => some (c.value % 2 ^ w)
  | Value.argument n => some (args n % 2 ^ w)
  | Value.otherConst _ => none

/-- Modelled from the spec: the value of one binary instruction. -/
def evalInstruction (w : Nat) (args : Nat → Nat) (env : List (Nat × Nat))
    (I : Instruction) : Option Nat :=
  match I.operands with
  | [a, b] =>
    match evalValue w args env a, evalValue w args env b with
    | some x, some y => evalBinary w I.opcode x y
    | _, _ => none
  | _ => none

/-- Modelled from the spec: evaluate the instructions in order, recording the
value of each instruction that has one. -/
def evalFunction (w : Nat) (args : Nat → Nat) : Function → List (Nat × Nat) → List (Nat × Nat)
  | [], env => env
  | I :: rest, env =>
    match evalInstruction w args env I with
    | some r => evalFunction w args rest ((I.id, r) :: env)
    | none => evalFunction w args rest env

/-- The value instruction `k` evaluates to in the function, if any. -/
def valueOf (w : Nat) (args : Nat → Nat) (function : Function) (k : Nat) : Option Nat :=
  (evalFunction w args function []).lookup k

/-! ## Concrete functions -/

/-- Scenario A with signed division at 8 bits:
`%r = sdiv i8 %x, 1 ; %s = add i8 %r, %y`. -/
def scenarioSigned : Function :=
  [⟨0, Opcode.SDiv, [Value.argument 0, Value.constInt ⟨8, 1⟩]⟩,
   ⟨1, Opcode.Add, [Value.inst 0, Value.argument 1]⟩]

/-- Run-time inputs `%x = 5`, `%y = 0`. -/
def inputs50 : Nat → Nat := fun n => if n = 0 then 5 else 0

/-- Scenario E: `%r = udiv i32 %x, 1` with no consumer, before an unrelated
addition. -/
def scenarioE : Function :=
  [⟨0, Opcode.UDiv, [Value.argument 0, one32]⟩,
   ⟨1, Opcode.Add, [Value.argument 0, Value.argument 1]⟩]

/-- A signed division by a run-time value whose dividend is a division by one:
`%r = udiv i32 %x, 1 ; %q = sdiv i32 %r, %y`. -/
def divOfDiv : Function :=
  [⟨0, Opcode.UDiv, [Value.argument 0, one32]⟩,
   ⟨1, Opcode.SDiv, [Value.inst 0, Value.argument 1]⟩]

/-- Scenarios B and C together: `%a = sdiv i32 %x, 2 ; %b = udiv i32 %x, 0`. -/
def scenarioBC : Function :=
  [⟨0, Opcode.SDiv, [Value.argument 0, Value.constInt ⟨32, 2⟩]⟩,
   ⟨1, Opcode.UDiv, [Value.argument 0, Value.constInt ⟨32, 0⟩]⟩]

/-- Scenario D after a division by one:
`%r = udiv i32 %x, 1 ; %q = sdiv i32 %r, -1`. -/
def scenarioD : Function :=
  [⟨0, Opcode.UDiv, [Value.argument 0, one32]⟩,
   ⟨1, Opcode.SDiv, [Value.inst 0, Value.constInt (ConstantInt.allOnes 32)]⟩]

/-- Scenario D at one bit: `%q = sdiv i1 %x, -1`. -/
def scenarioD1 : Function :=
  [⟨0, Opcode.SDiv, [Value.argument 0, Value.constInt (ConstantInt.allOnes 1)]⟩]

/-- A use laid out before its definition:
`%q = udiv i32 %x, %d ; %d = udiv i32 1, 1`. -/
def useBeforeDef : Function :=
  [⟨0, Opcode.UDiv, [Value.argument 0, Value.inst 1]⟩,
   ⟨1, Opcode.UDiv, [one32, one32]⟩]

/-- A chain of divisions by one, definitions before uses:
`%a = udiv i32 %x, 1 ; %b = sdiv i32 %y, %a ; %s = add i32 %a, %b`. -/
def chain : Function :=
  [⟨0, Opcode.UDiv, [Value.argument 0, one32]⟩,
   ⟨1, Opcode.SDiv, [Value.argument 1, Value.inst 0]⟩,
   ⟨2, Opcode.Add, [Value.inst 0, Value.inst 1]⟩]

/-- Divisions with a wrong operand count, next to a division by one:
`udiv` with one operand, `sdiv` with three operands, `%r = udiv i32 %x, 1`. -/
def malformed : Function :=
  [⟨0, Opcode.UDiv, [one32]⟩,
   ⟨1, Opcode.SDiv, [Value.argument 0, one32, one32]⟩,
   ⟨2, Opcode.UDiv, [Value.argument 0, one32]⟩]

/-- A use laid out before its definition outside a divisor slot:
`%s = add i32 %d, %x ; %d = udiv i32 %s, 1 ; %q = sdiv i32 %y, %d`. -/
def loopCarried : Function :=
  [⟨0, Opcode.Add, [Value.inst 1, Value.argument 0]⟩,
   ⟨1, Opcode.UDiv, [Value.inst 0, one32]⟩,
   ⟨2, Opcode.SDiv, [Value.argument 1, Value.inst 1]⟩]

/-! ## Basic facts about the embedding -/

theorem isOne_eq_true_iff (v : Value) :
    isOne v = true ↔ ∃ c, v = Value.constInt c ∧ c.isOne = true := by
  cases v <;> simp [isOne]

theorem isTrivialDiv_eq (instruction : Instruction) :
    isTrivialDiv instruction = some (eligible instruction) := by
  obtain ⟨id, opcode, operands⟩ := instruction
  unfold isTrivialDiv isTrivial isBinaryDiv eligible Instruction.getOperand
    Instruction.getNumOperands
  match operands with
  | [] => simp
  | [_] => simp
  | [_, v] => cases v <;> cases opcode <;> simp [isOne]
  | _ :: v :: _ :: _ => simp

theorem eligible_iff (instruction : Instruction) :
    eligible instruction = true ↔
      (instruction.opcode = Opcode.SDiv ∨ instruction.opcode = Opcode.UDiv) ∧
      instruction.operands.length = 2 ∧
      ∃ c, instruction.operands[1]? = some (Value.constInt c) ∧ c.isOne = true := by
  obtain ⟨id, opcode, operands⟩ := instruction
  unfold eligible
  match operands with
  | [] => simp
  | [_] => simp
  | [_, v] => cases v <;> simp
  | _ :: v :: _ :: _ => simp

theorem replaceUsesIn_id (old : Nat) (new : Value) (user : Instruction) :
    (replaceUsesIn old new user).id = user.id := rfl

theorem replaceUsesIn_opcode (old : Nat) (new : Value) (user : Instruction) :
    (replaceUsesIn old new user).opcode = user.opcode := rfl

theorem replaceUsesIn_operands (old : Nat) (new : Value) (user : Instruction) :
    (replaceUsesIn old new user).operands = user.operands.map (replaceUse old new) := rfl

theorem replaceAllUsesWith_append (f g : Function) (old : Nat) (new : Value) :
    replaceAllUsesWith (f ++ g) old new =
      replaceAllUsesWith f old new ++ replaceAllUsesWith g old new := by
  simp [replaceAllUsesWith]

theorem replaceAllUsesWith_length (f : Function) (old : Nat) (new : Value) :
    (replaceAllUsesWith f old new).length = f.length := by
  simp [replaceAllUsesWith]

theorem ids_replaceAllUsesWith (f : Function) (old : Nat) (new : Value) :
    ids (replaceAllUsesWith f old new) = ids f := by
  simp [ids, replaceAllUsesWith, Function.comp_def, replaceUsesIn_id]

theorem replaceUsesIn_of_not_mem (old : Nat) (new : Value) (user : Instruction)
    (h : Value.inst old ∉ user.operands) : replaceUsesIn old new user = user := by
  obtain ⟨id, opcode, operands⟩ := user
  simp only [replaceUsesIn, Instruction.mk.injEq, true_and]
  have : ∀ v ∈ operands, replaceUse old new v = v := by
    intro v hv
    unfold replaceUse
    split
    · next heq => subst heq; exact absurd hv h
    · rfl
  calc operands.map (replaceUse old new) = operands.map (fun v => v) := List.map_congr_left this
    _ = operands := List.map_id' operands

theorem use_empty_iff (f : Function) (id : Nat) :
    use_empty f id = true ↔ ∀ user ∈ f, Value.inst id ∉ user.operands := by
  simp only [use_empty, List.all_eq_true, bne_iff_ne, ne_eq]
  constructor
  · intro h user hu hmem
    exact h user hu _ hmem rfl
  · intro h user hu v hv heq
    subst heq
    exact h user hu hv

theorem replaceAllUsesWith_of_no_use (f : Function) (old : Nat) (new : Value)
    (h : ∀ user ∈ f, Value.inst old ∉ user.operands) :
    replaceAllUsesWith f old new = f := by
  unfold replaceAllUsesWith
  calc f.map (replaceUsesIn old new) = f.map (fun user => user) :=
        List.map_congr_left fun user hu => replaceUsesIn_of_not_mem old new user (h user hu)
    _ = f := List.map_id' f

/-! ## Unfolding the loop -/

theorem loop_end (fuel : Nat) (f : Function) (ii : Nat) (ch : Bool)
    (h : f[ii]? = none) : loop fuel f ii ch = some (f, ch) := by
  cases fuel <;> simp [loop, h]

theorem loop_skip (fuel : Nat) (f : Function) (ii : Nat) (ch : Bool) (I : Instruction)
    (h : f[ii]? = some I) (hI : eligible I = false) :
    loop (fuel + 1) f ii ch = loop fuel f (ii + 1) ch := by
  rw [loop]
  simp [h, isTrivialDiv_eq, hI]

theorem loop_erase_unused (fuel : Nat) (f : Function) (ii : Nat) (ch : Bool) (I : Instruction)
    (h : f[ii]? = some I) (hI : eligible I = true) (hu : use_empty f I.id = true) :
    loop (fuel + 1) f ii ch = loop fuel (f.eraseIdx ii) ii true := by
  rw [loop]
  simp [h, isTrivialDiv_eq, hI, hu, eraseFromParent]

theorem loop_erase_used (fuel : Nat) (f : Function) (ii : Nat) (ch : Bool) (I : Instruction)
    (rhs : Value) (h : f[ii]? = some I) (hI : eligible I = true)
    (hu : use_empty f I.id = false) (hrhs : I.operands[1]? = some rhs) :
    loop (fuel + 1) f ii ch =
      loop fuel ((replaceAllUsesWith f I.id rhs).eraseIdx ii) ii true := by
  rw [loop]
  simp [h, isTrivialDiv_eq, hI, hu, eraseFromParent, replaceWithArgument,
    Instruction.getOperand, hrhs]

theorem getElem?_append_cons (done rest : Function) (I : Instruction) :
    (done ++ I :: rest)[done.length]? = some I := by
  rw [List.getElem?_append_right (Nat.le_refl _)]
  simp

theorem eraseIdx_append_cons (done rest : Function) (I : Instruction) :
    (done ++ I :: rest).eraseIdx done.length = done ++ rest := by
  induction done with
  | nil => rfl
  | cons a done ih => simpa using ih

/-- One visit of an eligible instruction, whether or not it has uses: its uses
are replaced by its literal divisor and it is erased. -/
theorem loop_erase (fuel : Nat) (done rest : Function) (ch : Bool) (I : Instruction)
    (c : ConstantInt) (hI : eligible I = true)
    (hrhs : I.operands[1]? = some (Value.constInt c)) :
    loop (fuel + 1) (done ++ I :: rest) done.length ch =
      loop fuel (replaceAllUsesWith done I.id (Value.constInt c) ++
          replaceAllUsesWith rest I.id (Value.constInt c))
        (replaceAllUsesWith done I.id (Value.constInt c)).length true := by
  have hget := getElem?_append_cons done rest I
  cases hu : use_empty (done ++ I :: rest) I.id with
  | true =>
    rw [loop_erase_unused fuel _ _ ch I hget hI hu, eraseIdx_append_cons]
    have hno := (use_empty_iff _ _).1 hu
    rw [replaceAllUsesWith_of_no_use done _ _ (fun u hu => hno u (by simp [hu])),
      replaceAllUsesWith_of_no_use rest _ _ (fun u hu => hno u (by simp [hu]))]
  | false =>
    rw [loop_erase_used fuel _ _ ch I _ hget hI hu hrhs]
    have h1 : replaceAllUsesWith (done ++ I :: rest) I.id (Value.constInt c) =
        replaceAllUsesWith done I.id (Value.constInt c) ++
          replaceUsesIn I.id (Value.constInt c) I ::
            replaceAllUsesWith rest I.id (Value.constInt c) := by
      simp [replaceAllUsesWith]
    have h2 : done.length = (replaceAllUsesWith done I.id (Value.constInt c)).length :=
      (replaceAllUsesWith_length _ _ _).symm
    rw [h1]
    conv_lhs => rw [h2]
    rw [eraseIdx_append_cons]

/-- The loop rule: a property of the pair (instructions already visited,
instructions still to visit) and the flag that holds initially and is kept by
skipping an ineligible instruction and by removing an eligible one holds at
the end, and the loop does end with a result. -/
theorem loop_rule (P : Function → Function → Bool → Prop)
    (hskip : ∀ done I rest ch, P done (I :: rest) ch → eligible I = false →
      P (done ++ [I]) rest ch)
    (herase : ∀ done I rest ch c, P done (I :: rest) ch → eligible I = true →
      I.operands[1]? = some (Value.constInt c) → c.isOne = true →
      P (replaceAllUsesWith done I.id (Value.constInt c))
        (replaceAllUsesWith rest I.id (Value.constInt c)) true) :
    ∀ (fuel : Nat) (done todo : Function) (ch : Bool), todo.length ≤ fuel →
      P done todo ch →
      ∃ g c, loop fuel (done ++ todo) done.length ch = some (g, c) ∧ P g [] c := by
  intro fuel
  induction fuel with
  | zero =>
    intro done todo ch hlen hP
    have : todo = [] := List.eq_nil_of_length_eq_zero (Nat.le_zero.1 hlen)
    subst this
    exact ⟨done, ch, by rw [loop_end]; simp; simp, hP⟩
  | succ fuel ih =>
    intro done todo ch hlen hP
    cases todo with
    | nil => exact ⟨done, ch, by rw [loop_end]; simp; simp, hP⟩
    | cons I rest =>
      have hlen1 : rest.length ≤ fuel := by simpa using hlen
      cases hI : eligible I with
      | false =>
        rw [loop_skip fuel _ _ ch I (getElem?_append_cons done rest I) hI]
        have := ih (done ++ [I]) rest ch hlen1 (hskip done I rest ch hP hI)
        simpa using this
      | true =>
        obtain ⟨_, _, c, hc, hone⟩ := (eligible_iff I).1 hI
        rw [loop_erase fuel done rest ch I c hI hc]
        exact ih _ _ true (by simpa [replaceAllUsesWith_length] using hlen1)
          (herase done I rest ch c hP hI hc hone)

/-- The pass on a whole function, by the loop rule. -/
theorem runOnFunction_rule (P : Function → Function → Bool → Prop)
    (hskip : ∀ done I rest ch, P done (I :: rest) ch → eligible I = false →
      P (done ++ [I]) rest ch)
    (herase : ∀ done I rest ch c, P done (I :: rest) ch → eligible I = true →
      I.operands[1]? = some (Value.constInt c) → c.isOne = true →
      P (replaceAllUsesWith done I.id (Value.constInt c))
        (replaceAllUsesWith rest I.id (Value.constInt c)) true)
    (f : Function) (h0 : P [] f false) :
    ∃ g c, runOnFunction f = some (g, c) ∧ P g [] c := by
  have := loop_rule P hskip herase f.length [] f false (Nat.le_refl _) h0
  simpa [runOnFunction] using this

/-- The pass always returns a result. -/
theorem runOnFunction_total (f : Function) : ∃ g c, runOnFunction f = some (g, c) := by
  obtain ⟨g, c, h, _⟩ := runOnFunction_rule (fun _ _ _ => True)
    (fun _ _ _ _ _ _ => trivial) (fun _ _ _ _ _ _ _ _ _ => trivial) f trivial
  exact ⟨g, c, h⟩

/-! ## Facts about use replacement -/

theorem ids_append (f g : Function) : ids (f ++ g) = ids f ++ ids g := by
  simp [ids]

theorem ids_cons (I : Instruction) (f : Function) : ids (I :: f) = I.id :: ids f := rfl

theorem mem_ids_of_mem {I : Instruction} {f : Function} (h : I ∈ f) : I.id ∈ ids f :=
  List.mem_map_of_mem _ h

theorem replaceUse_constInt (old : Nat) (new : Value) (c : ConstantInt) :
    replaceUse old new (Value.constInt c) = Value.constInt c := by
  simp [replaceUse]

theorem replaceUsesIn_getElem? (old : Nat) (new : Value) (user : Instruction) (i : Nat) :
    (replaceUsesIn old new user).operands[i]? = (user.operands[i]?).map (replaceUse old new) := by
  simp [replaceUsesIn]

theorem eligible_replaceUsesIn (old : Nat) (new : Value) (I : Instruction)
    (h : eligible I = true) : eligible (replaceUsesIn old new I) = true := by
  obtain ⟨hop, hlen, c, hc, hone⟩ := (eligible_iff I).1 h
  refine (eligible_iff _).2 ⟨hop, by simpa [replaceUsesIn] using hlen, c, ?_, hone⟩
  rw [replaceUsesIn_getElem?, hc]
  simp [replaceUse_constInt]

theorem mem_replaceAllUsesWith {f : Function} {old : Nat} {new : Value} {J : Instruction}
    (h : J ∈ replaceAllUsesWith f old new) : ∃ I ∈ f, J = replaceUsesIn old new I := by
  obtain ⟨I, hI, rfl⟩ := List.mem_map.1 h
  exact ⟨I, hI, rfl⟩

theorem replaceUsesIn_mem {f : Function} (old : Nat) (new : Value) {I : Instruction}
    (h : I ∈ f) : replaceUsesIn old new I ∈ replaceAllUsesWith f old new :=
  List.mem_map_of_mem _ h

/-- After the replacement no operand refers to the replaced instruction,
provided the new value is not that instruction itself. -/
theorem not_mem_operands_replaceUsesIn (old : Nat) (c : ConstantInt) (I : Instruction) :
    Value.inst old ∉ (replaceUsesIn old (Value.constInt c) I).operands := by
  intro h
  obtain ⟨v, _, hv⟩ := List.mem_map.1 h
  unfold replaceUse at hv
  split at hv
  · cases hv
  · next hne => exact hne hv

/-- Replacing uses by a literal creates no reference to an instruction. -/
theorem inst_mem_operands_replaceUsesIn {old : Nat} {c : ConstantInt} {I : Instruction}
    {k : Nat} (h : Value.inst k ∈ (replaceUsesIn old (Value.constInt c) I).operands) :
    Value.inst k ∈ I.operands ∧ k ≠ old := by
  obtain ⟨v, hv, hveq⟩ := List.mem_map.1 h
  unfold replaceUse at hveq
  split at hveq
  · cases hveq
  · next hne =>
    subst hveq
    exact ⟨hv, fun hk => hne (by rw [hk])⟩

/-! ## C1: the consumers of a removed division -/

/-- C1, on Scenario A: after the pass the consumer `%s = add i32 %r, %y` of
`%r = udiv i32 %x, 1` holds the literal divisor `1` in the slot that held `%r`,
not the dividend `%x`. -/
theorem C1_scenarioA_consumer_holds_divisor :
    runOnFunction scenarioA =
        some ([⟨1, Opcode.Add, [Value.constInt ⟨32, 1⟩, Value.argument 1]⟩], true) ∧
      runOnFunction scenarioA ≠
        some ([⟨1, Opcode.Add, [Value.argument 0, Value.argument 1]⟩], true) := by
  decide

/-! ## C2: values of the surviving instructions -/

/-- C2, on `%r = sdiv i8 %x, 1 ; %s = add i8 %r, %y` with `%x = 5`, `%y = 0`:
`%s` evaluates to 5 in the input function and to 1 in the function the pass
returns. -/
theorem C2_surviving_value_differs :
    ∃ g, runOnFunction scenarioSigned = some (g, true) ∧
      valueOf 8 inputs50 scenarioSigned 1 = some 5 ∧
      valueOf 8 inputs50 g 1 = some 1 := by
  refine ⟨[⟨1, Opcode.Add, [Value.constInt ⟨8, 1⟩, Value.argument 1]⟩], ?_, ?_, ?_⟩ <;> decide

/-! ## C3: an eligible division is erased -/

theorem eligible_division_erased (f : Function) (D : Instruction)
    (hn : (ids f).Nodup) (hD : D ∈ f) (hel : eligible D = true) :
    ∃ g, runOnFunction f = some (g, true) ∧ D.id ∉ ids g := by
  obtain ⟨g, c, hrun, _, hP⟩ := runOnFunction_rule
    (fun done todo ch => (ids (done ++ todo)).Nodup ∧
      ((∃ E ∈ todo, E.id = D.id ∧ eligible E = true) ∨
        (D.id ∉ ids (done ++ todo) ∧ ch = true)))
    (by
      rintro done I rest ch ⟨hnd, h⟩ hI
      refine ⟨by simpa using hnd, ?_⟩
      rcases h with ⟨E, hE, hid, hEel⟩ | h
      · rcases List.mem_cons.1 hE with rfl | hE
        · rw [hI] at hEel; cases hEel
        · exact Or.inl ⟨E, hE, hid, hEel⟩
      · exact Or.inr (by simpa using h))
    (by
      rintro done I rest ch c ⟨hnd, h⟩ hI _ _
      have hnd1 : (ids done ++ I.id :: ids rest).Nodup := by
        simpa [ids_append, ids_cons] using hnd
      have hsub : (ids done ++ ids rest).Sublist (ids done ++ I.id :: ids rest) :=
        List.Sublist.append (List.Sublist.refl _) (List.sublist_cons_self _ _)
      have hIid : I.id ∉ ids done ++ ids rest := by
        intro hmem
        rcases List.mem_append.1 hmem with hm | hm
        · exact (List.nodup_append.1 hnd1).2.2 hm (List.mem_cons_self _ _)
        · exact (List.nodup_cons.1 (List.nodup_append.1 hnd1).2.1).1 hm
      refine ⟨?_, ?_⟩
      · rw [ids_append, ids_replaceAllUsesWith, ids_replaceAllUsesWith]
        exact hnd1.sublist hsub
      · rcases h with ⟨E, hE, hid, hEel⟩ | ⟨h, _⟩
        · rcases List.mem_cons.1 hE with rfl | hE
          · refine Or.inr ⟨?_, rfl⟩
            rw [ids_append, ids_replaceAllUsesWith, ids_replaceAllUsesWith, ← hid]
            exact hIid
          · exact Or.inl ⟨_, replaceUsesIn_mem _ _ hE, hid, eligible_replaceUsesIn _ _ _ hEel⟩
        · refine Or.inr ⟨?_, rfl⟩
          rw [ids_append, ids_replaceAllUsesWith, ids_replaceAllUsesWith]
          intro hmem
          exact h (by rw [ids_append, ids_cons]; exact hsub.subset hmem))
    f ⟨by simpa using hn, Or.inl ⟨D, hD, rfl, hel⟩⟩
  rcases hP with ⟨E, hE, _⟩ | ⟨hid, hc⟩
  · cases hE
  · subst hc
    exact ⟨g, hrun, by simpa using hid⟩

/-- A function without eligible division is returned as it is. -/
theorem runOnFunction_of_no_eligible (f : Function) (h : ∀ I ∈ f, eligible I = false) :
    runOnFunction f = some (f, false) := by
  obtain ⟨g, c, hrun, hg, hc, _⟩ := runOnFunction_rule
    (fun done todo ch => done ++ todo = f ∧ ch = false ∧ ∀ I ∈ todo, eligible I = false)
    (by
      rintro done I rest ch ⟨hf, hch, hall⟩ _
      exact ⟨by simpa using hf, hch, fun J hJ => hall J (List.mem_cons_of_mem _ hJ)⟩)
    (by
      rintro done I rest ch c ⟨_, _, hall⟩ hI _ _
      rw [hall I (List.mem_cons_self _ _)] at hI
      cases hI)
    f ⟨rfl, rfl, h⟩
  simp only [List.append_nil] at hg
  subst hg hc
  exact hrun

/-- A single eligible division without consumer is erased and nothing else
changes. -/
theorem runOnFunction_single_unused (pre post : Function) (D : Instruction)
    (hel : eligible D = true) (hu : use_empty (pre ++ D :: post) D.id = true)
    (hrest : ∀ I ∈ pre ++ post, eligible I = false) :
    runOnFunction (pre ++ D :: post) = some (pre ++ post, true) := by
  have hno := (use_empty_iff _ _).1 hu
  obtain ⟨g, c, hrun, hP⟩ := runOnFunction_rule
    (fun done todo ch =>
      (ch = false ∧ ∃ p, pre = done ++ p ∧ todo = p ++ D :: post) ∨
      (ch = true ∧ ∃ q, post = q ++ todo ∧ done = pre ++ q))
    (by
      rintro done I rest ch h hI
      rcases h with ⟨hch, p, hpre, htodo⟩ | ⟨hch, q, hpost, hdone⟩
      · cases p with
        | nil =>
          simp only [List.nil_append, List.cons.injEq] at htodo
          rw [htodo.1, hel] at hI
          cases hI
        | cons a p =>
          simp only [List.cons_append, List.cons.injEq] at htodo
          obtain ⟨rfl, rfl⟩ := htodo
          exact Or.inl ⟨hch, p, by simp [hpre], rfl⟩
      · exact Or.inr ⟨hch, q ++ [I], by simp [hpost], by simp [hdone]⟩)
    (by
      rintro done I rest ch c h hI _ _
      rcases h with ⟨_, p, hpre, htodo⟩ | ⟨_, q, hpost, _⟩
      · cases p with
        | nil =>
          simp only [List.nil_append, List.cons.injEq, List.append_nil] at htodo hpre
          obtain ⟨rfl, rfl⟩ := htodo
          subst hpre
          rw [replaceAllUsesWith_of_no_use pre _ _ (fun u hu => hno u (by simp [hu])),
            replaceAllUsesWith_of_no_use rest _ _ (fun u hu => hno u (by simp [hu]))]
          exact Or.inr ⟨rfl, [], rfl, by simp⟩
        | cons a p =>
          simp only [List.cons_append, List.cons.injEq] at htodo
          rw [hrest I (by simp [hpre, htodo.1])] at hI
          cases hI
      · rw [hrest I (by simp [hpost])] at hI
        cases hI)
    (pre ++ D :: post) (Or.inl ⟨rfl, pre, rfl, rfl⟩)
  rcases hP with ⟨_, p, _, hp⟩ | ⟨hc, q, hq, hg⟩
  · cases p <;> cases hp
  · simp only [List.append_nil] at hq
    subst hc hq
    rw [hrun, hg]

/-- C3: in a function whose instructions have distinct identities, an
instruction that on input is an `sdiv`/`udiv` with exactly two operands and
second operand the literal one is absent from the returned sequence and
`changed` is true, whether or not it has consumers; when it has no consumer
and is the only eligible division, the returned sequence is the input with
that instruction erased and nothing else touched. -/
theorem C3_eligible_division_is_erased (f : Function) (D : Instruction)
    (hn : (ids f).Nodup) (hD : D ∈ f) (hel : eligible D = true) :
    ∃ g, runOnFunction f = some (g, true) ∧ D.id ∉ ids g ∧
      ∀ pre post, f = pre ++ D :: post → use_empty f D.id = true →
        (∀ I ∈ pre ++ post, eligible I = false) → g = pre ++ post := by
  obtain ⟨g, hrun, hid⟩ := eligible_division_erased f D hn hD hel
  refine ⟨g, hrun, hid, ?_⟩
  intro pre post hf hu hrest
  subst hf
  have h2 := runOnFunction_single_unused pre post D hel hu hrest
  rw [hrun] at h2
  simpa using h2

/-- C3 on Scenario E: `%r = udiv i32 %x, 1` without consumer is erased. -/
theorem C3_eligible_division_is_erased_witness :
    ∃ g, runOnFunction scenarioE = some (g, true) ∧ 0 ∉ ids g ∧
      ∀ pre post,
        scenarioE = pre ++ (⟨0, Opcode.UDiv, [Value.argument 0, one32]⟩ : Instruction) :: post →
        use_empty scenarioE 0 = true →
        (∀ I ∈ pre ++ post, eligible I = false) → g = pre ++ post :=
  C3_eligible_division_is_erased scenarioE ⟨0, Opcode.UDiv, [Value.argument 0, one32]⟩
    (by decide) (by decide) (by decide)

/-! ## What happens to each instruction of the input -/

theorem forall₂_getElem? {α β : Type} {R : α → β → Prop} {l1 : List α} {l2 : List β}
    (h : List.Forall₂ R l1 l2) (i : Nat) (a : α) (ha : l1[i]? = some a) :
    ∃ b, l2[i]? = some b ∧ R a b := by
  induction h generalizing i with
  | nil => simp at ha
  | cons hab _ ih =>
    cases i with
    | zero =>
      simp only [List.getElem?_cons_zero, Option.some.injEq] at ha
      subst ha
      exact ⟨_, by simp, hab⟩
    | succ i => simpa using ih i (by simpa using ha)

theorem removed_mono {f g g1 : Function} (hsub : ∀ k, k ∈ ids g1 → k ∈ ids g) {k : Nat}
    (h : removed f g k) : removed f g1 k :=
  ⟨h.1, fun hk => h.2 (hsub k hk)⟩

/-- Every instruction of the input either survives with its operand slots
redirected, or was erased as a trivial division. -/
theorem instruction_fate (f : Function) (hn : (ids f).Nodup) :
    ∃ g ch, runOnFunction f = some (g, ch) ∧ (ids g).Sublist (ids f) ∧
      ∀ E ∈ f, survives f g E ∨ erasedAsTrivial f g E := by
  obtain ⟨g, ch, hrun, hsub, hP⟩ := runOnFunction_rule
    (fun done todo _ => (ids (done ++ todo)).Sublist (ids f) ∧
      ∀ E ∈ f, survives f (done ++ todo) E ∨ erasedAsTrivial f (done ++ todo) E)
    (by
      rintro done I rest ch h _
      simpa using h)
    (by
      rintro done I rest ch c ⟨hsub, hall⟩ hI hc hone
      have hsub0 : (ids done ++ I.id :: ids rest).Sublist (ids f) := by
        simpa [ids_append, ids_cons] using hsub
      have hnd1 : (ids done ++ I.id :: ids rest).Nodup := hn.sublist hsub0
      have hsub1 : (ids done ++ ids rest).Sublist (ids done ++ I.id :: ids rest) :=
        List.Sublist.append (List.Sublist.refl _) (List.sublist_cons_self _ _)
      have hIid : I.id ∉ ids done ++ ids rest := by
        intro hmem
        rcases List.mem_append.1 hmem with hm | hm
        · exact (List.nodup_append.1 hnd1).2.2 hm (List.mem_cons_self _ _)
        · exact (List.nodup_cons.1 (List.nodup_append.1 hnd1).2.1).1 hm
      have hids : ids (replaceAllUsesWith done I.id (Value.constInt c) ++
          replaceAllUsesWith rest I.id (Value.constInt c)) = ids done ++ ids rest := by
        rw [ids_append, ids_replaceAllUsesWith, ids_replaceAllUsesWith]
      have hmono : ∀ k, k ∈ ids (replaceAllUsesWith done I.id (Value.constInt c) ++
          replaceAllUsesWith rest I.id (Value.constInt c)) → k ∈ ids (done ++ I :: rest) := by
        intro k hk
        rw [hids] at hk
        rw [ids_append, ids_cons]
        exact hsub1.subset hk
      have hIrem : removed f (replaceAllUsesWith done I.id (Value.constInt c) ++
          replaceAllUsesWith rest I.id (Value.constInt c)) I.id :=
        ⟨hsub0.subset (by simp), by rw [hids]; exact hIid⟩
      refine ⟨by rw [hids]; exact hsub1.trans hsub0, ?_⟩
      intro E hE
      rcases hall E hE with ⟨E1, hE1, hid, hop, hops⟩ | ⟨hgone, hop, hlen, v, hv, hwhy⟩
      · have hstep : ∀ w w1, redirected f (done ++ I :: rest) w w1 →
            redirected f (replaceAllUsesWith done I.id (Value.constInt c) ++
              replaceAllUsesWith rest I.id (Value.constInt c)) w
              (replaceUse I.id (Value.constInt c) w1) := by
          rintro w w1 (rfl | ⟨k, c1, hw, hk, hw1, hc1⟩)
          · unfold replaceUse
            split
            · next heq => exact Or.inr ⟨I.id, c, heq, hIrem, rfl, hone⟩
            · exact Or.inl rfl
          · subst hw1
            rw [replaceUse_constInt]
            exact Or.inr ⟨k, c1, hw, removed_mono hmono hk, rfl, hc1⟩
        have hcases : E1 ∈ done ∨ E1 = I ∨ E1 ∈ rest := by
          rcases List.mem_append.1 hE1 with h | h
          · exact Or.inl h
          · rcases List.mem_cons.1 h with h | h
            · exact Or.inr (Or.inl h)
            · exact Or.inr (Or.inr h)
        have hkeep : ∀ L : Function, E1 ∈ L →
            replaceUsesIn I.id (Value.constInt c) E1 ∈
              replaceAllUsesWith L I.id (Value.constInt c) ∧
            List.Forall₂ (redirected f (replaceAllUsesWith done I.id (Value.constInt c) ++
              replaceAllUsesWith rest I.id (Value.constInt c))) E.operands
              (replaceUsesIn I.id (Value.constInt c) E1).operands := by
          intro L hL
          refine ⟨replaceUsesIn_mem _ _ hL, ?_⟩
          rw [replaceUsesIn_operands, List.forall₂_map_right_iff]
          exact hops.imp hstep
        rcases hcases with h | h | h
        · exact Or.inl ⟨_, List.mem_append_left _ (hkeep done h).1, hid, hop, (hkeep done h).2⟩
        · subst h
          obtain ⟨hop1, hlen1, _⟩ := (eligible_iff E1).1 hI
          have hlenE : E.operands.length = 2 := by rw [hops.length_eq, hlen1]
          have h1 : (1 : Nat) < E.operands.length := by omega
          obtain ⟨b, hb, hr⟩ := forall₂_getElem? hops 1 (E.operands[1])
            (List.getElem?_eq_getElem h1)
          rw [hc] at hb
          cases hb
          refine Or.inr ⟨by rw [hids, ← hid]; exact hIid, by rw [← hop]; exact hop1, hlenE,
            E.operands[1], List.getElem?_eq_getElem h1, ?_⟩
          rcases hr with hr | ⟨k, c1, hw, hk, _, _⟩
          · exact Or.inl ⟨c, hr.symm, hone⟩
          · exact Or.inr ⟨k, hw, removed_mono hmono hk⟩
        · exact Or.inl ⟨_, List.mem_append_right _ (hkeep rest h).1, hid, hop, (hkeep rest h).2⟩
      · refine Or.inr ⟨fun hk => hgone (hmono _ hk), hop, hlen, v, hv, ?_⟩
        rcases hwhy with h | ⟨k, hk, hrem⟩
        · exact Or.inl h
        · exact Or.inr ⟨k, hk, removed_mono hmono hrem⟩)
    f ⟨by simp, fun E hE => Or.inl ⟨E, by simpa using hE, rfl, rfl,
      List.forall₂_same.2 fun _ _ => Or.inl rfl⟩⟩
  exact ⟨g, ch, hrun, by simpa using hsub, by simpa using hP⟩

/-! ## The operands of the output, exactly -/

theorem resolve_self (lit : Nat → ConstantInt) (f : Function) (w : Value) :
    resolve lit f f w = w := by
  cases w with
  | inst k =>
    simp only [resolve]
    exact if_neg (fun h => h.2 h.1)
  | constInt c => rfl
  | argument n => rfl
  | otherConst n => rfl

theorem resolve_of_not_removed (lit : Nat → ConstantInt) (f g : Function) (w : Value)
    (h : ∀ k, w = Value.inst k → ¬ removed f g k) : resolve lit f g w = w := by
  cases w with
  | inst k =>
    simp only [resolve]
    exact if_neg (h k rfl)
  | constInt c => rfl
  | argument n => rfl
  | otherConst n => rfl

theorem resolve_of_removed (lit : Nat → ConstantInt) (f g : Function) (k : Nat)
    (h : removed f g k) : resolve lit f g (Value.inst k) = Value.constInt (lit k) := by
  simp only [resolve]
  exact if_pos h

theorem resolve_ne (lit : Nat → ConstantInt) (f g : Function) (w : Value)
    (h : resolve lit f g w ≠ w) : ∃ k, w = Value.inst k ∧ removed f g k := by
  cases w with
  | inst k =>
    by_cases hr : removed f g k
    · exact ⟨k, rfl, hr⟩
    · exact absurd (resolve_of_not_removed lit f g _ (fun k1 hk1 => by cases hk1; exact hr)) h
  | constInt c => exact absurd rfl h
  | argument n => exact absurd rfl h
  | otherConst n => exact absurd rfl h

/-- One erase step on a resolved operand: replacing the uses of `old` by the
literal `c` is resolving with `old` added to the removed instructions. -/
theorem replaceUse_resolve (lit : Nat → ConstantInt) (f cur cur1 : Function) (old : Nat)
    (c : ConstantInt) (hold : old ∈ ids cur) (holdf : old ∈ ids f) (hold1 : old ∉ ids cur1)
    (hsub : ∀ k, k ∈ ids cur1 → k ∈ ids cur)
    (hback : ∀ k, k ∈ ids cur → k ≠ old → k ∈ ids cur1) (w : Value) :
    replaceUse old (Value.constInt c) (resolve lit f cur w) =
      resolve (fun k => if k = old then c else lit k) f cur1 w := by
  cases w with
  | inst k =>
    by_cases hrem : k ∈ ids f ∧ k ∉ ids cur
    · have hne : k ≠ old := fun h => hrem.2 (h ▸ hold)
      have hrem1 : k ∈ ids f ∧ k ∉ ids cur1 := ⟨hrem.1, fun h => hrem.2 (hsub k h)⟩
      simp only [resolve, if_pos hrem, if_pos hrem1, replaceUse_constInt, if_neg hne]
    · simp only [resolve, if_neg hrem]
      by_cases hk : k = old
      · subst hk
        have hrem1 : k ∈ ids f ∧ k ∉ ids cur1 := ⟨holdf, hold1⟩
        simp [replaceUse, if_pos hrem1]
      · have hrem1 : ¬ (k ∈ ids f ∧ k ∉ ids cur1) := by
          rintro ⟨hkf, hk1⟩
          have hkc : k ∈ ids cur := by
            by_contra hkc
            exact hrem ⟨hkf, hkc⟩
          exact hk1 (hback k hkc hk)
        have hne : Value.inst k ≠ Value.inst old := fun h => hk (by cases h; rfl)
        simp only [replaceUse, if_neg hne, if_neg hrem1]
  | constInt c1 => simp [resolve, replaceUse]
  | argument n => simp [resolve, replaceUse]
  | otherConst n => simp [resolve, replaceUse]

/-- Every instruction of the input is either present in the output with its
operand slots resolved, or was erased as a division by a literal one. -/
theorem instruction_fate_exact (f : Function) (hn : (ids f).Nodup) :
    ∃ g ch lit, runOnFunction f = some (g, ch) ∧
      ∀ E ∈ f, keptAs lit f g E ∨ erasedWith lit f g E := by
  obtain ⟨g, ch, hrun, _, lit, hP⟩ := runOnFunction_rule
    (fun done todo _ => (ids (done ++ todo)).Sublist (ids f) ∧
      ∃ lit, ∀ E ∈ f, keptAs lit f (done ++ todo) E ∨ erasedWith lit f (done ++ todo) E)
    (by
      rintro done I rest ch h _
      simpa using h)
    (by
      rintro done I rest ch c ⟨hsub, lit, hall⟩ hI hc hone
      have hsub0 : (ids done ++ I.id :: ids rest).Sublist (ids f) := by
        simpa [ids_append, ids_cons] using hsub
      have hnd1 : (ids done ++ I.id :: ids rest).Nodup := hn.sublist hsub0
      have hsub1 : (ids done ++ ids rest).Sublist (ids done ++ I.id :: ids rest) :=
        List.Sublist.append (List.Sublist.refl _) (List.sublist_cons_self _ _)
      have hIid : I.id ∉ ids done ++ ids rest := by
        intro hmem
        rcases List.mem_append.1 hmem with hm | hm
        · exact (List.nodup_append.1 hnd1).2.2 hm (List.mem_cons_self _ _)
        · exact (List.nodup_cons.1 (List.nodup_append.1 hnd1).2.1).1 hm
      have hids : ids (replaceAllUsesWith done I.id (Value.constInt c) ++
          replaceAllUsesWith rest I.id (Value.constInt c)) = ids done ++ ids rest := by
        rw [ids_append, ids_replaceAllUsesWith, ids_replaceAllUsesWith]
      have hcur : ids (done ++ I :: rest) = ids done ++ I.id :: ids rest := by
        rw [ids_append, ids_cons]
      have hmono : ∀ k, k ∈ ids (replaceAllUsesWith done I.id (Value.constInt c) ++
          replaceAllUsesWith rest I.id (Value.constInt c)) → k ∈ ids (done ++ I :: rest) := by
        intro k hk
        rw [hids] at hk
        rw [hcur]
        exact hsub1.subset hk
      have hback : ∀ k, k ∈ ids (done ++ I :: rest) → k ≠ I.id →
          k ∈ ids (replaceAllUsesWith done I.id (Value.constInt c) ++
            replaceAllUsesWith rest I.id (Value.constInt c)) := by
        intro k hk hne
        rw [hids]
        rw [hcur] at hk
        rcases List.mem_append.1 hk with h | h
        · exact List.mem_append_left _ h
        · rcases List.mem_cons.1 h with h | h
          · exact absurd h hne
          · exact List.mem_append_right _ h
      have hIcur : I.id ∈ ids (done ++ I :: rest) := by rw [hcur]; simp
      have hstep := replaceUse_resolve lit f (done ++ I :: rest)
        (replaceAllUsesWith done I.id (Value.constInt c) ++
          replaceAllUsesWith rest I.id (Value.constInt c)) I.id c hIcur
        (hsub.subset hIcur) (by rw [hids]; exact hIid) hmono hback
      have hmap : ∀ l : List Value,
          l.map (resolve (fun k => if k = I.id then c else lit k) f
            (replaceAllUsesWith done I.id (Value.constInt c) ++
              replaceAllUsesWith rest I.id (Value.constInt c))) =
          (l.map (resolve lit f (done ++ I :: rest))).map
            (replaceUse I.id (Value.constInt c)) := by
        intro l
        rw [List.map_map]
        exact List.map_congr_left fun w _ => (hstep w).symm
      refine ⟨by rw [hids]; exact hsub1.trans hsub0,
        fun k => if k = I.id then c else lit k, ?_⟩
      intro E hE
      rcases hall E hE with ⟨E1, hE1, hid, hop, hops⟩ | ⟨hgone, hop, hlen, hlit, hdiv⟩
      · have hcases : E1 ∈ done ∨ E1 = I ∨ E1 ∈ rest := by
          rcases List.mem_append.1 hE1 with h | h
          · exact Or.inl h
          · rcases List.mem_cons.1 h with h | h
            · exact Or.inr (Or.inl h)
            · exact Or.inr (Or.inr h)
        have hkeep : (replaceUsesIn I.id (Value.constInt c) E1).operands =
            E.operands.map (resolve (fun k => if k = I.id then c else lit k) f
              (replaceAllUsesWith done I.id (Value.constInt c) ++
                replaceAllUsesWith rest I.id (Value.constInt c))) := by
          rw [hmap, replaceUsesIn_operands, hops]
        rcases hcases with h | h | h
        · exact Or.inl ⟨_, List.mem_append_left _ (replaceUsesIn_mem _ _ h), hid, hop, hkeep⟩
        · subst h
          obtain ⟨hop1, hlen1, _⟩ := (eligible_iff E1).1 hI
          refine Or.inr ⟨by rw [hids, ← hid]; exact hIid, by rw [← hop]; exact hop1, ?_, ?_, ?_⟩
          · have := congrArg List.length hops
            simp only [List.length_map] at this
            rw [← this]; exact hlen1
          · simp only [hid, if_pos]
            exact hone
          · rw [← hkeep, replaceUsesIn_getElem?, hc]
            simp [replaceUse_constInt, hid]
        · exact Or.inl ⟨_, List.mem_append_right _ (replaceUsesIn_mem _ _ h), hid, hop, hkeep⟩
      · have hne : E.id ≠ I.id := fun h => hgone (h ▸ hIcur)
        refine Or.inr ⟨fun hk => hgone (hmono _ hk), hop, hlen, ?_, ?_⟩
        · simp only [if_neg hne]
          exact hlit
        · rw [hmap, List.getElem?_map, hdiv]
          simp [replaceUse_constInt, if_neg hne])
    f ⟨by simp, fun _ => ⟨0, 0⟩, fun E hE => Or.inl ⟨E, by simpa using hE, rfl, rfl, by
      simp only [List.nil_append]
      calc E.operands = E.operands.map (fun w => w) := (List.map_id' E.operands).symm
        _ = E.operands.map (resolve (fun _ => ⟨0, 0⟩) f f) :=
          List.map_congr_left fun w _ => (resolve_self _ f w).symm⟩⟩
  exact ⟨g, ch, lit, hrun, by simpa using hP⟩

theorem map_resolve_of_not_removed (lit : Nat → ConstantInt) (f g : Function)
    (l : List Value) (h : ∀ k, Value.inst k ∈ l → ¬ removed f g k) :
    l.map (resolve lit f g) = l := by
  calc l.map (resolve lit f g) = l.map (fun w => w) :=
        List.map_congr_left fun w hw =>
          resolve_of_not_removed lit f g w fun k hk => h k (hk ▸ hw)
    _ = l := List.map_id' l

theorem resolve_not_removed_inst (lit : Nat → ConstantInt) (f g : Function) (w : Value)
    (k : Nat) (h : resolve lit f g w = Value.inst k) : ¬ removed f g k := by
  intro hrem
  cases w with
  | inst k1 =>
    by_cases hr : removed f g k1
    · rw [resolve_of_removed lit f g k1 hr] at h
      cases h
    · rw [resolve_of_not_removed lit f g _ (fun k2 hk2 => by cases hk2; exact hr)] at h
      cases h
      exact hr hrem
  | constInt c => cases h
  | argument n => cases h
  | otherConst n => cases h

/-! ## C4: divisions by a run-time value -/

/-- C4 as stated fails on `%r = udiv i32 %x, 1 ; %q = sdiv i32 %r, %y`: the
divisor of `%q` is the run-time value `%y`, yet `%q` with its input operands
is not in the output, its dividend slot has been redirected. -/
theorem C4_operands_not_kept :
    runOnFunction divOfDiv =
        some ([⟨1, Opcode.SDiv, [Value.constInt ⟨32, 1⟩, Value.argument 1]⟩], true) ∧
      (⟨1, Opcode.SDiv, [Value.inst 0, Value.argument 1]⟩ : Instruction) ∉
        ([⟨1, Opcode.SDiv, [Value.constInt ⟨32, 1⟩, Value.argument 1]⟩] : Function) := by
  decide

/-- C4, amended: in a function with distinct instruction identities, a
division whose divisor on input is a run-time value that is not the result of
an instruction the pass removes is still present in the output, with the same
opcode, the same number of operands and the same divisor, and every operand
slot of it that did not refer to a removed instruction holds the same
operand.  A slot that referred to a removed division is redirected: after the
pass it holds an operand that is not the result of a removed instruction, and
no operand of the instruction refers to a removed instruction. -/
theorem C4_runtime_divisor_division_kept (f : Function) (E : Instruction) (v : Value)
    (hn : (ids f).Nodup) (hE : E ∈ f)
    (hop : E.opcode = Opcode.SDiv ∨ E.opcode = Opcode.UDiv)
    (hv : E.operands[1]? = some v) (hrt : isRunTime v = true) :
    ∃ g ch, runOnFunction f = some (g, ch) ∧
      ((∀ k, v = Value.inst k → ¬ removed f g k) →
        ∃ E1 ∈ g, E1.id = E.id ∧ E1.opcode = E.opcode ∧
          E1.operands.length = E.operands.length ∧
          E1.operands[1]? = some v ∧
          (∀ (i : Nat) (w : Value), E.operands[i]? = some w →
            (∀ k, w = Value.inst k → ¬ removed f g k) → E1.operands[i]? = some w) ∧
          (∀ (i k : Nat), E.operands[i]? = some (Value.inst k) → removed f g k →
            ∃ w1, E1.operands[i]? = some w1 ∧ w1 ≠ Value.inst k ∧
              ∀ k1, removed f g k1 → w1 ≠ Value.inst k1) ∧
          (∀ k, removed f g k → Value.inst k ∉ E1.operands)) := by
  have _ := hop
  obtain ⟨g, ch, lit, hrun, hfate⟩ := instruction_fate_exact f hn
  refine ⟨g, ch, hrun, fun hkeep => ?_⟩
  have hv1 : resolve lit f g v = v := resolve_of_not_removed lit f g v hkeep
  rcases hfate E hE with ⟨E1, hE1, hid, hop1, hops⟩ | ⟨_, _, _, _, hdiv⟩
  · have hslot : ∀ (i : Nat) (w : Value), E.operands[i]? = some w →
        (∀ k, w = Value.inst k → ¬ removed f g k) → E1.operands[i]? = some w := by
      intro i w hw hnot
      rw [hops, List.getElem?_map, hw]
      simp [resolve_of_not_removed lit f g w hnot]
    refine ⟨E1, hE1, hid, hop1, by rw [hops, List.length_map], hslot 1 v hv hkeep, hslot,
      ?_, ?_⟩
    · intro i k hw hrem
      have hne : ∀ k1 : Nat, Value.constInt (lit k) ≠ Value.inst k1 := fun k1 h => by cases h
      refine ⟨Value.constInt (lit k), ?_, hne k, fun k1 _ => hne k1⟩
      rw [hops, List.getElem?_map, hw]
      simp [resolve_of_removed lit f g k hrem]
    · intro k hrem hmem
      rw [hops] at hmem
      obtain ⟨w, _, hw⟩ := List.mem_map.1 hmem
      exact resolve_not_removed_inst lit f g w k hw hrem
  · rw [List.getElem?_map, hv] at hdiv
    simp only [Option.map_some', hv1, Option.some.injEq] at hdiv
    subst hdiv
    cases hrt

/-- C4, amended, on `%r = udiv i32 %x, 1 ; %q = sdiv i32 %r, %y`: `%q` is kept
with its divisor `%y`, and its dividend slot, which referred to the removed
`%r`, holds an operand that is not the result of a removed instruction. -/
theorem C4_runtime_divisor_division_kept_witness :
    ∃ g ch, runOnFunction divOfDiv = some (g, ch) ∧
      ∃ E1 ∈ g, E1.id = 1 ∧ E1.opcode = Opcode.SDiv ∧
        E1.operands.length = 2 ∧
        E1.operands[1]? = some (Value.argument 1) ∧
        (∀ (i : Nat) (w : Value), [Value.inst 0, Value.argument 1][i]? = some w →
          (∀ k, w = Value.inst k → ¬ removed divOfDiv g k) →
          E1.operands[i]? = some w) ∧
        (∀ (i k : Nat), [Value.inst 0, Value.argument 1][i]? = some (Value.inst k) →
          removed divOfDiv g k →
          ∃ w1, E1.operands[i]? = some w1 ∧ w1 ≠ Value.inst k ∧
            ∀ k1, removed divOfDiv g k1 → w1 ≠ Value.inst k1) ∧
        (∀ k, removed divOfDiv g k → Value.inst k ∉ E1.operands) := by
  obtain ⟨g, ch, hrun, h⟩ := C4_runtime_divisor_division_kept divOfDiv
    ⟨1, Opcode.SDiv, [Value.inst 0, Value.argument 1]⟩ (Value.argument 1)
    (by decide) (by decide) (Or.inl rfl) rfl rfl
  exact ⟨g, ch, hrun, h (fun k hk => by cases hk)⟩

/-! ## C5: divisions by a literal other than one -/

theorem not_eligible_of_divisor {I : Instruction} {c : ConstantInt}
    (hc : I.operands[1]? = some (Value.constInt c)) (hone : c.isOne = false) :
    eligible I = false := by
  cases h : eligible I with
  | false => rfl
  | true =>
    obtain ⟨_, _, c1, hc1, hone1⟩ := (eligible_iff I).1 h
    rw [hc] at hc1
    cases hc1
    rw [hone] at hone1
    cases hone1

theorem not_eligible_of_opcode {I : Instruction}
    (h : I.opcode ≠ Opcode.SDiv ∧ I.opcode ≠ Opcode.UDiv) : eligible I = false := by
  cases hel : eligible I with
  | false => rfl
  | true =>
    rcases ((eligible_iff I).1 hel).1 with h1 | h1
    · exact absurd h1 h.1
    · exact absurd h1 h.2

/-- C5: a division whose divisor on input is an integer literal other than one
is never erased: the output holds an instruction with its identity, its
opcode, its number of operands and the same literal divisor; and when every
instruction of the function is such a division or is not a division, the
pass returns `changed = false` and the function as it was. -/
theorem C5_literal_divisor_not_one_kept (f : Function) (E : Instruction) (c : ConstantInt)
    (hE : E ∈ f) (hop : E.opcode = Opcode.SDiv ∨ E.opcode = Opcode.UDiv)
    (hc : E.operands[1]? = some (Value.constInt c)) (hone : c.isOne = false) :
    ∃ g ch, runOnFunction f = some (g, ch) ∧
      (∃ E1 ∈ g, E1.id = E.id ∧ E1.opcode = E.opcode ∧
        E1.operands.length = E.operands.length ∧
        E1.operands[1]? = some (Value.constInt c)) ∧
      ((∀ I ∈ f, (I.opcode ≠ Opcode.SDiv ∧ I.opcode ≠ Opcode.UDiv) ∨
          ∃ c1, I.operands[1]? = some (Value.constInt c1) ∧ c1.isOne = false) →
        ch = false ∧ g = f) := by
  have _ := hop
  obtain ⟨g, ch, hrun, hP⟩ := runOnFunction_rule
    (fun done todo _ => ∃ E1 ∈ done ++ todo, E1.id = E.id ∧ E1.opcode = E.opcode ∧
      E1.operands.length = E.operands.length ∧ E1.operands[1]? = some (Value.constInt c))
    (by
      rintro done I rest ch h _
      simpa using h)
    (by
      rintro done I rest ch c1 ⟨E1, hE1, hid, hop1, hlen, hdiv⟩ _ hc1 hone1
      have hne : E1 ≠ I := by
        rintro rfl
        rw [hdiv] at hc1
        cases hc1
        rw [hone] at hone1
        cases hone1
      have hmem : E1 ∈ done ∨ E1 ∈ rest := by
        rcases List.mem_append.1 hE1 with h | h
        · exact Or.inl h
        · rcases List.mem_cons.1 h with h | h
          · exact absurd h hne
          · exact Or.inr h
      refine ⟨replaceUsesIn I.id (Value.constInt c1) E1, ?_, hid, hop1,
        by simpa [replaceUsesIn] using hlen, ?_⟩
      · rcases hmem with h | h
        · exact List.mem_append_left _ (replaceUsesIn_mem _ _ h)
        · exact List.mem_append_right _ (replaceUsesIn_mem _ _ h)
      · rw [replaceUsesIn_getElem?, hdiv]
        simp [replaceUse_constInt])
    f ⟨E, by simpa using hE, rfl, rfl, rfl, hc⟩
  refine ⟨g, ch, hrun, by simpa using hP, ?_⟩
  intro hall
  have hnone : ∀ I ∈ f, eligible I = false := by
    intro I hI
    rcases hall I hI with h | ⟨c1, hc1, hone1⟩
    · exact not_eligible_of_opcode h
    · exact not_eligible_of_divisor hc1 hone1
  rw [runOnFunction_of_no_eligible f hnone] at hrun
  cases hrun
  exact ⟨rfl, rfl⟩

/-- C5 on Scenarios B and C: `%b = udiv i32 %x, 0` after `%a = sdiv i32 %x, 2`. -/
theorem C5_literal_divisor_not_one_kept_witness :
    ∃ g ch, runOnFunction scenarioBC = some (g, ch) ∧
      (∃ E1 ∈ g, E1.id = 1 ∧ E1.opcode = Opcode.UDiv ∧
        E1.operands.length = 2 ∧
        E1.operands[1]? = some (Value.constInt ⟨32, 0⟩)) ∧
      ((∀ I ∈ scenarioBC, (I.opcode ≠ Opcode.SDiv ∧ I.opcode ≠ Opcode.UDiv) ∨
          ∃ c1, I.operands[1]? = some (Value.constInt c1) ∧ c1.isOne = false) →
        ch = false ∧ g = scenarioBC) :=
  C5_literal_divisor_not_one_kept scenarioBC
    ⟨1, Opcode.UDiv, [Value.argument 0, Value.constInt ⟨32, 0⟩]⟩ ⟨32, 0⟩
    (by decide) (Or.inr rfl) rfl (by decide)

/-! ## C6: signed division by minus one -/

theorem allOnes_isOne_false (w : Nat) (hw : 2 ≤ w) : (ConstantInt.allOnes w).isOne = false := by
  have h4 : 2 ^ 2 ≤ 2 ^ w := Nat.pow_le_pow_right (by decide) hw
  have h4 : 4 ≤ 2 ^ w := h4
  have hmod : (2 ^ w - 1) % 2 ^ w = 2 ^ w - 1 := Nat.mod_eq_of_lt (by omega)
  simp only [ConstantInt.isOne, ConstantInt.allOnes, hmod, beq_eq_false_iff_ne, ne_eq]
  omega

/-- C6 as stated fails at bit width 1, where the all-ones literal is the
literal one: `sdiv i1 %x, -1` is eligible and the pass erases it.  At width 32
the division by `-1` stays, but its dividend slot is redirected when it
referred to a removed division, so it is not left unmodified either. -/
theorem C6_all_ones_width_one_is_eligible :
    isTrivialDiv ⟨0, Opcode.SDiv, [Value.argument 0, Value.constInt (ConstantInt.allOnes 1)]⟩
        = some true ∧
      runOnFunction scenarioD1 = some ([], true) ∧
      runOnFunction scenarioD =
        some ([⟨1, Opcode.SDiv,
          [Value.constInt ⟨32, 1⟩, Value.constInt (ConstantInt.allOnes 32)]⟩], true) := by
  decide

/-- C6, amended: for every bit width `w ≥ 2`, a signed division whose divisor
is the `w`-bit all-ones literal is not eligible, and in a function with
distinct instruction identities the pass keeps it with its opcode and its
divisor; its dividend is the same too unless it referred to a removed
instruction. -/
theorem C6_sdiv_by_all_ones_kept (w : Nat) (hw : 2 ≤ w) (f : Function) (E : Instruction)
    (x : Value) (hn : (ids f).Nodup) (hE : E ∈ f) (hop : E.opcode = Opcode.SDiv)
    (hops : E.operands = [x, Value.constInt (ConstantInt.allOnes w)]) :
    isTrivialDiv E = some false ∧
      ∃ g ch, runOnFunction f = some (g, ch) ∧
        ∃ E1 ∈ g, E1.id = E.id ∧ E1.opcode = Opcode.SDiv ∧
          ∃ x1, E1.operands = [x1, Value.constInt (ConstantInt.allOnes w)] ∧
            ((∀ k, x = Value.inst k → ¬ removed f g k) → x1 = x) := by
  have hnot := allOnes_isOne_false w hw
  have hdiv : E.operands[1]? = some (Value.constInt (ConstantInt.allOnes w)) := by
    rw [hops]; rfl
  refine ⟨by rw [isTrivialDiv_eq, not_eligible_of_divisor hdiv hnot], ?_⟩
  obtain ⟨g, ch, hrun, _, hfate⟩ := instruction_fate f hn
  refine ⟨g, ch, hrun, ?_⟩
  rcases hfate E hE with ⟨E1, hE1, hid, hop1, hrel⟩ | ⟨_, _, _, v1, hv1, hwhy⟩
  · rw [hops] at hrel
    obtain ⟨x1, l1, hx, hrest, hE1ops⟩ := List.forall₂_cons_left_iff.1 hrel
    obtain ⟨y1, l2, hy, hnil, hl1⟩ := List.forall₂_cons_left_iff.1 hrest
    have hl2 : l2 = [] := List.forall₂_nil_left_iff.1 hnil
    subst hl2 hl1
    have hy1 : y1 = Value.constInt (ConstantInt.allOnes w) := by
      rcases hy with h | ⟨k, _, hk, _⟩
      · exact h
      · cases hk
    subst hy1
    refine ⟨E1, hE1, hid, by rw [hop1, hop], x1, hE1ops, fun hkeep => ?_⟩
    rcases hx with h | ⟨k, _, hk, hrem, _⟩
    · exact h
    · exact absurd hrem (hkeep k hk)
  · rw [hdiv] at hv1
    cases hv1
    rcases hwhy with ⟨c, hc, hone⟩ | ⟨k, hk, _⟩
    · cases hc
      rw [hnot] at hone
      cases hone
    · cases hk

/-- C6, amended, on Scenario D preceded by a division by one. -/
theorem C6_sdiv_by_all_ones_kept_witness :
    isTrivialDiv ⟨1, Opcode.SDiv, [Value.inst 0, Value.constInt (ConstantInt.allOnes 32)]⟩
        = some false ∧
      ∃ g ch, runOnFunction scenarioD = some (g, ch) ∧
        ∃ E1 ∈ g, E1.id = 1 ∧ E1.opcode = Opcode.SDiv ∧
          ∃ x1, E1.operands = [x1, Value.constInt (ConstantInt.allOnes 32)] ∧
            ((∀ k, Value.inst 0 = Value.inst k → ¬ removed scenarioD g k) →
              x1 = Value.inst 0) :=
  C6_sdiv_by_all_ones_kept 32 (by decide) scenarioD
    ⟨1, Opcode.SDiv, [Value.inst 0, Value.constInt (ConstantInt.allOnes 32)]⟩ (Value.inst 0)
    (by decide) (by decide) rfl rfl

/-! ## C7: the returned flag -/

/-- C7: the pass returns `changed = true` exactly when the returned sequence
is strictly shorter than the input, the returned identities being a
subsequence of the input identities. -/
theorem C7_changed_iff_shorter (f : Function) :
    ∃ g ch, runOnFunction f = some (g, ch) ∧ (ids g).Sublist (ids f) ∧
      (ch = true ↔ g.length < f.length) := by
  obtain ⟨g, ch, hrun, hsub, hiff⟩ := runOnFunction_rule
    (fun done todo ch => (ids (done ++ todo)).Sublist (ids f) ∧
      (ch = true ↔ (done ++ todo).length < f.length))
    (by
      rintro done I rest ch h _
      simpa using h)
    (by
      rintro done I rest ch c ⟨hsub, _⟩ _ _ _
      have hsub0 : (ids done ++ I.id :: ids rest).Sublist (ids f) := by
        simpa [ids_append, ids_cons] using hsub
      have hsub1 : (ids done ++ ids rest).Sublist (ids done ++ I.id :: ids rest) :=
        List.Sublist.append (List.Sublist.refl _) (List.sublist_cons_self _ _)
      have hlen := hsub0.length_le
      simp only [List.length_append, List.length_cons, ids, List.length_map] at hlen
      refine ⟨?_, ?_⟩
      · rw [ids_append, ids_replaceAllUsesWith, ids_replaceAllUsesWith]
        exact hsub1.trans hsub0
      · simp only [List.length_append, replaceAllUsesWith_length, true_iff]
        omega)
    f ⟨by simp, by simp⟩
  exact ⟨g, ch, hrun, by simpa using hsub, by simpa using hiff⟩

/-! ## C8: functions without eligible division -/

/-- C8: a function without eligible division is returned unchanged, with the
same instructions in the same order, and `changed = false`; so is the
function with no instruction. -/
theorem C8_no_eligible_division_unchanged (f : Function)
    (h : ∀ I ∈ f, eligible I = false) :
    runOnFunction f = some (f, false) ∧ runOnFunction [] = some ([], false) :=
  ⟨runOnFunction_of_no_eligible f h, rfl⟩

/-- C8 on Scenarios B and C. -/
theorem C8_no_eligible_division_unchanged_witness :
    runOnFunction scenarioBC = some (scenarioBC, false) ∧
      runOnFunction [] = some ([], false) :=
  C8_no_eligible_division_unchanged scenarioBC (by decide)

/-! ## C9: running the pass twice -/

theorem defsBeforeUses_replaceAllUsesWith (l : Function) (old : Nat) (c : ConstantInt)
    (h : defsBeforeUses l) : defsBeforeUses (replaceAllUsesWith l old (Value.constInt c)) := by
  induction l with
  | nil => exact h
  | cons I rest ih =>
    obtain ⟨hhead, htail⟩ := h
    refine ⟨?_, ih htail⟩
    intro J hJ hmem
    have hJ1 : J ∈ replaceAllUsesWith (I :: rest) old (Value.constInt c) := hJ
    obtain ⟨J0, hJ0, rfl⟩ := mem_replaceAllUsesWith hJ1
    exact hhead J0 hJ0 (inst_mem_operands_replaceUsesIn hmem).1

theorem isBinaryDiv_replaceUsesIn (old : Nat) (new : Value) (I : Instruction) :
    isBinaryDiv (replaceUsesIn old new I) = isBinaryDiv I := by
  simp [isBinaryDiv, replaceUsesIn, Instruction.getNumOperands]

theorem isBinaryDiv_of_eligible {I : Instruction} (h : eligible I = true) :
    isBinaryDiv I = true := by
  obtain ⟨hop, hlen, _⟩ := (eligible_iff I).1 h
  simp only [isBinaryDiv, Instruction.getNumOperands, Bool.and_eq_true, Bool.or_eq_true,
    beq_iff_eq]
  exact ⟨hop, hlen⟩

/-- A slot that holds a reference after uses were replaced by a literal held
that reference before. -/
theorem replaceUse_eq_inst {old : Nat} {c : ConstantInt} {v : Value} {k : Nat}
    (h : replaceUse old (Value.constInt c) v = Value.inst k) : v = Value.inst k := by
  unfold replaceUse at h
  split at h
  · cases h
  · exact h

theorem getOperand_replaceUsesIn_inst {old : Nat} {c : ConstantInt} {I : Instruction}
    {k : Nat}
    (h : (replaceUsesIn old (Value.constInt c) I).getOperand 1 = some (Value.inst k)) :
    I.getOperand 1 = some (Value.inst k) := by
  unfold Instruction.getOperand at h ⊢
  rw [replaceUsesIn_getElem?] at h
  cases hv : I.operands[1]? with
  | none => rw [hv] at h; cases h
  | some v =>
    rw [hv] at h
    simp only [Option.map_some', Option.some.injEq] at h
    rw [replaceUse_eq_inst h]

/-- Replacing the uses of `old` does not make an instruction eligible unless
its divisor slot referred to `old`. -/
theorem eligible_of_eligible_replaceUsesIn {old : Nat} {c : ConstantInt} {I : Instruction}
    (hdiv : I.getOperand 1 ≠ some (Value.inst old))
    (h : eligible (replaceUsesIn old (Value.constInt c) I) = true) : eligible I = true := by
  obtain ⟨hop, hlen, c1, hc1, hone⟩ := (eligible_iff _).1 h
  rw [replaceUsesIn_getElem?] at hc1
  refine (eligible_iff I).2 ⟨hop, by simpa [replaceUsesIn] using hlen, c1, ?_, hone⟩
  cases hv : I.operands[1]? with
  | none => rw [hv] at hc1; cases hc1
  | some v =>
    rw [hv] at hc1
    simp only [Option.map_some', Option.some.injEq] at hc1
    have hne : v ≠ Value.inst old := fun hveq => hdiv (by
      unfold Instruction.getOperand
      rw [hv, hveq])
    unfold replaceUse at hc1
    rw [if_neg hne] at hc1
    rw [hc1]

theorem noForwardDivisor_replaceAllUsesWith (l : Function) (old : Nat) (c : ConstantInt)
    (h : noForwardDivisor l) :
    noForwardDivisor (replaceAllUsesWith l old (Value.constInt c)) := by
  induction l with
  | nil => exact h
  | cons I rest ih =>
    obtain ⟨hhead, htail⟩ := h
    refine ⟨?_, ih htail⟩
    intro hI J hJ hJdiv hslot
    obtain ⟨J0, hJ0, rfl⟩ := mem_replaceAllUsesWith hJ
    rw [isBinaryDiv_replaceUsesIn] at hI hJdiv
    exact hhead hI J0 hJ0 hJdiv (getOperand_replaceUsesIn_inst hslot)

/-- Definitions before uses is a special case: it forbids every forward
reference, not only those in a divisor slot. -/
theorem noForwardDivisor_of_defsBeforeUses (l : Function) (h : defsBeforeUses l) :
    noForwardDivisor l := by
  induction l with
  | nil => trivial
  | cons I rest ih =>
    obtain ⟨hhead, htail⟩ := h
    refine ⟨?_, ih htail⟩
    intro _ J hJ _ hslot
    exact hhead J (List.mem_cons_of_mem _ hJ) (List.getElem?_mem hslot)

/-- When no binary division has a later division in its divisor slot, the
function the pass returns holds no eligible division. -/
theorem no_eligible_after_run (f : Function) (h : noForwardDivisor f) :
    ∃ g ch, runOnFunction f = some (g, ch) ∧ ∀ I ∈ g, eligible I = false := by
  obtain ⟨g, ch, hrun, hnone, _⟩ := runOnFunction_rule
    (fun done todo _ => (∀ I ∈ done, eligible I = false) ∧
      (∀ I ∈ done, isBinaryDiv I = true → ∀ J ∈ todo, isBinaryDiv J = true →
        I.getOperand 1 ≠ some (Value.inst J.id)) ∧ noForwardDivisor todo)
    (by
      rintro done I rest ch ⟨hnone, huse, hhead, htail⟩ hI
      refine ⟨?_, ?_, htail⟩
      · intro J hJ
        rcases List.mem_append.1 hJ with hJ | hJ
        · exact hnone J hJ
        · rw [List.mem_singleton.1 hJ]; exact hI
      · intro J hJ hJdiv K hK hKdiv
        rcases List.mem_append.1 hJ with hJ | hJ
        · exact huse J hJ hJdiv K (List.mem_cons_of_mem _ hK) hKdiv
        · rw [List.mem_singleton.1 hJ] at hJdiv ⊢
          exact hhead hJdiv K hK hKdiv)
    (by
      rintro done I rest ch c ⟨hnone, huse, _, htail⟩ hI _ _
      have hIdiv := isBinaryDiv_of_eligible hI
      refine ⟨?_, ?_, noForwardDivisor_replaceAllUsesWith rest _ _ htail⟩
      · intro J hJ
        obtain ⟨J0, hJ0, rfl⟩ := mem_replaceAllUsesWith hJ
        cases hel : eligible (replaceUsesIn I.id (Value.constInt c) J0) with
        | false => rfl
        | true =>
          have hJ0div : isBinaryDiv J0 = true := by
            rw [← isBinaryDiv_replaceUsesIn I.id (Value.constInt c) J0]
            exact isBinaryDiv_of_eligible hel
          have := eligible_of_eligible_replaceUsesIn
            (huse J0 hJ0 hJ0div I (List.mem_cons_self _ _) hIdiv) hel
          rw [hnone J0 hJ0] at this
          cases this
      · intro J hJ hJdiv K hK hKdiv hslot
        obtain ⟨J0, hJ0, rfl⟩ := mem_replaceAllUsesWith hJ
        obtain ⟨K0, hK0, rfl⟩ := mem_replaceAllUsesWith hK
        rw [isBinaryDiv_replaceUsesIn] at hJdiv hKdiv
        exact huse J0 hJ0 hJdiv K0 (List.mem_cons_of_mem _ hK0) hKdiv
          (getOperand_replaceUsesIn_inst hslot))
    f ⟨by simp, by simp, h⟩
  exact ⟨g, ch, hrun, hnone⟩

/-- C9 as stated fails on `%q = udiv i32 %x, %d ; %d = udiv i32 1, 1`, where the
use is laid out before the definition: the first run erases `%d` and leaves
`%q = udiv i32 %x, 1`, which the second run erases, returning `changed = true`. -/
theorem C9_second_run_changes :
    runOnFunction useBeforeDef =
        some ([⟨0, Opcode.UDiv, [Value.argument 0, Value.constInt ⟨32, 1⟩]⟩], true) ∧
      runOnFunction [⟨0, Opcode.UDiv, [Value.argument 0, Value.constInt ⟨32, 1⟩]⟩] =
        some ([], true) := by
  decide

/-- C9, amended: for every function in which no binary division has in its
divisor slot (operand 1) the result of a binary division that comes later in
the instruction order, running the pass on the result of the pass returns
`changed = false` and leaves that result unchanged. -/
theorem C9_idempotent_no_forward_divisor (f : Function) (h : noForwardDivisor f) :
    ∃ g ch, runOnFunction f = some (g, ch) ∧ runOnFunction g = some (g, false) := by
  obtain ⟨g, ch, hrun, hnone⟩ := no_eligible_after_run f h
  exact ⟨g, ch, hrun, runOnFunction_of_no_eligible g hnone⟩

/-- C9, amended, on a function with a use laid out before its definition
outside a divisor slot; the first run removes both divisions. -/
theorem C9_idempotent_no_forward_divisor_witness :
    ∃ g ch, runOnFunction loopCarried = some (g, ch) ∧ runOnFunction g = some (g, false) :=
  C9_idempotent_no_forward_divisor loopCarried (by
    simp [loopCarried, noForwardDivisor, isBinaryDiv, Instruction.getOperand,
      Instruction.getNumOperands, one32])

/-! ## C10: no dangling uses -/

/-- C10: when every operand of the input that refers to an instruction refers
to an instruction of the function, the same holds of the output, so no
operand of a remaining instruction refers to a removed instruction. -/
theorem C10_no_dangling_uses (f : Function) (h : closed f) :
    ∃ g ch, runOnFunction f = some (g, ch) ∧ closed g ∧
      ∀ k, removed f g k → ∀ I ∈ g, Value.inst k ∉ I.operands := by
  obtain ⟨g, ch, hrun, hclosed⟩ := runOnFunction_rule
    (fun done todo _ => closed (done ++ todo))
    (by
      rintro done I rest ch h _
      simpa using h)
    (by
      rintro done I rest ch c hcl _ _ _
      intro J hJ k hk
      have hsrc : ∃ J0 ∈ done ++ I :: rest, J = replaceUsesIn I.id (Value.constInt c) J0 := by
        rcases List.mem_append.1 hJ with hJ | hJ
        · obtain ⟨J0, hJ0, rfl⟩ := mem_replaceAllUsesWith hJ
          exact ⟨J0, List.mem_append_left _ hJ0, rfl⟩
        · obtain ⟨J0, hJ0, rfl⟩ := mem_replaceAllUsesWith hJ
          exact ⟨J0, List.mem_append_right _ (List.mem_cons_of_mem _ hJ0), rfl⟩
      obtain ⟨J0, hJ0, rfl⟩ := hsrc
      obtain ⟨hmem, hne⟩ := inst_mem_operands_replaceUsesIn hk
      have hin := hcl J0 hJ0 k hmem
      rw [ids_append, ids_cons] at hin
      rw [ids_append, ids_replaceAllUsesWith, ids_replaceAllUsesWith]
      rcases List.mem_append.1 hin with hin | hin
      · exact List.mem_append_left _ hin
      · rcases List.mem_cons.1 hin with hin | hin
        · exact absurd hin hne
        · exact List.mem_append_right _ hin)
    f (by simpa using h)
  have hclosed : closed g := by simpa using hclosed
  exact ⟨g, ch, hrun, hclosed, fun k hrem I hI hmem => hrem.2 (hclosed I hI k hmem)⟩

/-- C10 on a chain of divisions whose consumers are redirected. -/
theorem C10_no_dangling_uses_witness :
    ∃ g ch, runOnFunction chain = some (g, ch) ∧ closed g ∧
      ∀ k, removed chain g k → ∀ I ∈ g, Value.inst k ∉ I.operands :=
  C10_no_dangling_uses chain (by
    simp [closed, chain, ids, one32])

/-! ## C11: the operand count guard -/

theorem not_eligible_of_length {I : Instruction} (h : I.operands.length ≠ 2) :
    eligible I = false := by
  cases hel : eligible I with
  | false => rfl
  | true => exact absurd ((eligible_iff I).1 hel).2.1 h

/-- C11: an instruction whose operand count is not two, whatever its opcode,
is not a trivial division and is skipped: the pass returns, and the output
holds it with its identity, opcode and operand count.  Operand 1 is read by
`isTrivial` only after `isBinaryDiv` has checked the count, and by
`replaceWithArgument` only after `isTrivialDiv` has answered true, so each
read finds an operand and no call ends in the out-of-range case. -/
theorem C11_operand_count_guard (f : Function) (I : Instruction) (hI : I ∈ f)
    (hlen : I.getNumOperands ≠ 2) :
    isTrivialDiv I = some false ∧
      (∃ g ch, runOnFunction f = some (g, ch) ∧
        ∃ I1 ∈ g, I1.id = I.id ∧ I1.opcode = I.opcode ∧
          I1.getNumOperands = I.getNumOperands) ∧
      (∀ J : Instruction, isBinaryDiv J = true →
        J.getNumOperands = 2 ∧ ∃ rhs, J.getOperand 1 = some rhs ∧
          isTrivial J = some (isOne rhs)) ∧
      (∀ J : Instruction, isTrivialDiv J = some true →
        J.getNumOperands = 2 ∧ ∃ rhs, J.getOperand 1 = some rhs ∧
          ∀ F : Function, replaceWithArgument F J = some (replaceAllUsesWith F J.id rhs)) ∧
      (∀ J : Instruction, isTrivialDiv J ≠ none) := by
  have hlen1 : I.operands.length ≠ 2 := hlen
  refine ⟨by rw [isTrivialDiv_eq, not_eligible_of_length hlen1], ?_, ?_, ?_, ?_⟩
  · obtain ⟨g, ch, hrun, hP⟩ := runOnFunction_rule
      (fun done todo _ => ∃ I1 ∈ done ++ todo, I1.id = I.id ∧ I1.opcode = I.opcode ∧
        I1.operands.length = I.operands.length)
      (by
        rintro done J rest ch h _
        simpa using h)
      (by
        rintro done J rest ch c ⟨I1, hI1, hid, hop, hl⟩ hJ _ _
        have hne : I1 ≠ J := by
          rintro rfl
          exact hlen1 (by rw [← hl]; exact ((eligible_iff I1).1 hJ).2.1)
        have hmem : I1 ∈ done ∨ I1 ∈ rest := by
          rcases List.mem_append.1 hI1 with h | h
          · exact Or.inl h
          · rcases List.mem_cons.1 h with h | h
            · exact absurd h hne
            · exact Or.inr h
        refine ⟨replaceUsesIn J.id (Value.constInt c) I1, ?_, hid, hop,
          by simpa [replaceUsesIn] using hl⟩
        rcases hmem with h | h
        · exact List.mem_append_left _ (replaceUsesIn_mem _ _ h)
        · exact List.mem_append_right _ (replaceUsesIn_mem _ _ h))
      f ⟨I, by simpa using hI, rfl, rfl, rfl⟩
    exact ⟨g, ch, hrun, by simpa [Instruction.getNumOperands] using hP⟩
  · intro J hJ
    have h2 : J.operands.length = 2 := by
      simp only [isBinaryDiv, Instruction.getNumOperands, Bool.and_eq_true,
        beq_iff_eq] at hJ
      exact hJ.2
    have h1 : (1 : Nat) < J.operands.length := by omega
    exact ⟨h2, J.operands[1], List.getElem?_eq_getElem h1, by
      simp [isTrivial, Instruction.getOperand, List.getElem?_eq_getElem h1]⟩
  · intro J hJ
    rw [isTrivialDiv_eq] at hJ
    have hel : eligible J = true := by simpa using hJ
    obtain ⟨_, h2, c, hc, _⟩ := (eligible_iff J).1 hel
    exact ⟨h2, Value.constInt c, hc, fun F => by
      simp [replaceWithArgument, Instruction.getOperand, hc]⟩
  · intro J
    rw [isTrivialDiv_eq]
    simp

/-- C11 on a `udiv` with a single operand. -/
theorem C11_operand_count_guard_witness :
    isTrivialDiv ⟨0, Opcode.UDiv, [one32]⟩ = some false ∧
      (∃ g ch, runOnFunction malformed = some (g, ch) ∧
        ∃ I1 ∈ g, I1.id = 0 ∧ I1.opcode = Opcode.UDiv ∧ I1.getNumOperands = 1) ∧
      (∀ J : Instruction, isBinaryDiv J = true →
        J.getNumOperands = 2 ∧ ∃ rhs, J.getOperand 1 = some rhs ∧
          isTrivial J = some (isOne rhs)) ∧
      (∀ J : Instruction, isTrivialDiv J = some true →
        J.getNumOperands = 2 ∧ ∃ rhs, J.getOperand 1 = some rhs ∧
          ∀ F : Function, replaceWithArgument F J = some (replaceAllUsesWith F J.id rhs)) ∧
      (∀ J : Instruction, isTrivialDiv J ≠ none) :=
  C11_operand_count_guard malformed ⟨0, Opcode.UDiv, [one32]⟩ (by decide) (by decide)

/-! ## C12: eligibility -/

/-- C12: `isTrivialDiv` answers true exactly when the opcode is `sdiv` or
`udiv`, there are exactly two operands, and the second operand is an integer
literal whose value at its bit width is one; it always answers; and the
answer does not depend on the identity of the instruction or on its first
operand. -/
theorem C12_eligibility_is_the_conjunction (I : Instruction) :
    (isTrivialDiv I = some true ↔
        (I.opcode = Opcode.SDiv ∨ I.opcode = Opcode.UDiv) ∧ I.getNumOperands = 2 ∧
          ∃ c, I.getOperand 1 = some (Value.constInt c) ∧ c.value % 2 ^ c.width = 1) ∧
      (isTrivialDiv I = some true ∨ isTrivialDiv I = some false) ∧
      (∀ (k : Nat) (x y divisor : Value),
        isTrivialDiv ⟨k, I.opcode, [x, divisor]⟩ =
          isTrivialDiv ⟨I.id, I.opcode, [y, divisor]⟩) := by
  refine ⟨?_, ?_, ?_⟩
  · rw [isTrivialDiv_eq]
    simp only [Option.some.injEq, eligible_iff, Instruction.getNumOperands,
      Instruction.getOperand, ConstantInt.isOne, beq_iff_eq]
  · rw [isTrivialDiv_eq]
    cases eligible I <;> simp
  · intro k x y divisor
    rw [isTrivialDiv_eq, isTrivialDiv_eq]
    rfl

/-! ## C13: the pass only deletes -/

theorem sameShape_replaceUsesIn {I J : Instruction} (old : Nat) (new : Value)
    (h : sameShape I J) : sameShape I (replaceUsesIn old new J) :=
  ⟨h.1, h.2.1, by simpa [replaceUsesIn] using h.2.2⟩

theorem forall₂_sameShape_replaceAllUsesWith {l g : Function} (old : Nat) (new : Value)
    (h : List.Forall₂ sameShape l g) :
    List.Forall₂ sameShape l (replaceAllUsesWith g old new) := by
  unfold replaceAllUsesWith
  rw [List.forall₂_map_right_iff]
  exact h.imp fun _ _ hab => sameShape_replaceUsesIn old new hab

/-- C13: the instructions the pass returns are, in the same order, those of a
subsequence of the input, each with its identity, its opcode and its number
of operands; nothing is created. -/
theorem C13_only_deletes (f : Function) :
    ∃ g ch l, runOnFunction f = some (g, ch) ∧ l.Sublist f ∧ List.Forall₂ sameShape l g := by
  obtain ⟨g, ch, hrun, fd, ft, hd, ht, hsub⟩ := runOnFunction_rule
    (fun done todo _ => ∃ fd ft, List.Forall₂ sameShape fd done ∧
      List.Forall₂ sameShape ft todo ∧ (fd ++ ft).Sublist f)
    (by
      rintro done I rest ch ⟨fd, ft, hd, ht, hsub⟩ _
      obtain ⟨I0, ft1, hI0, hrest, rfl⟩ := List.forall₂_cons_right_iff.1 ht
      exact ⟨fd ++ [I0], ft1,
        List.rel_append hd (List.Forall₂.cons hI0 List.Forall₂.nil), hrest,
        by simpa using hsub⟩)
    (by
      rintro done I rest ch c ⟨fd, ft, hd, ht, hsub⟩ _ _ _
      obtain ⟨I0, ft1, _, hrest, rfl⟩ := List.forall₂_cons_right_iff.1 ht
      refine ⟨fd, ft1, forall₂_sameShape_replaceAllUsesWith _ _ hd,
        forall₂_sameShape_replaceAllUsesWith _ _ hrest, ?_⟩
      exact (List.Sublist.append_left (List.sublist_cons_self I0 ft1) fd).trans hsub)
    f ⟨[], f, List.Forall₂.nil,
      List.forall₂_same.2 fun _ _ => ⟨rfl, rfl, rfl⟩, by simp⟩
  have hft : ft = [] := List.forall₂_nil_right_iff.1 ht
  subst hft
  exact ⟨g, ch, fd, hrun, by simpa using hsub, hd⟩

/-! ## C14: the frame of the rewrite -/

/-- C14: in a function with distinct instruction identities, every removed
instruction is a division, and every instruction that survives the pass keeps
its opcode and its number of operands; each operand slot of it that on input
did not refer to a removed division holds the same operand afterwards, and a
slot whose operand differs referred to a removed division.  An ineligible
instruction none of whose operands refers to a removed division is in the
output as it was. -/
theorem C14_frame_of_the_rewrite (f : Function) (hn : (ids f).Nodup) :
    ∃ g ch, runOnFunction f = some (g, ch) ∧
      (∀ D ∈ f, removed f g D.id → D.opcode = Opcode.SDiv ∨ D.opcode = Opcode.UDiv) ∧
      (∀ E ∈ f, E.id ∈ ids g →
        ∃ E1 ∈ g, E1.id = E.id ∧ E1.opcode = E.opcode ∧
          E1.operands.length = E.operands.length ∧
          (∀ (i : Nat) (w : Value), E.operands[i]? = some w →
            (∀ k, w = Value.inst k → ¬ removed f g k) → E1.operands[i]? = some w) ∧
          (∀ (i : Nat) (w w1 : Value), E.operands[i]? = some w →
            E1.operands[i]? = some w1 → w1 ≠ w → ∃ k, w = Value.inst k ∧ removed f g k)) ∧
      (∀ E ∈ f, eligible E = false →
        (∀ k, Value.inst k ∈ E.operands → ¬ removed f g k) → E ∈ g) := by
  obtain ⟨g, ch, lit, hrun, hfate⟩ := instruction_fate_exact f hn
  refine ⟨g, ch, hrun, ?_, ?_, ?_⟩
  · intro D hD hrem
    rcases hfate D hD with ⟨E1, hE1, hid, _⟩ | ⟨_, hop, _⟩
    · exact absurd (hid ▸ mem_ids_of_mem hE1) hrem.2
    · exact hop
  · intro E hE hin
    rcases hfate E hE with ⟨E1, hE1, hid, hop, hops⟩ | ⟨hgone, _⟩
    · refine ⟨E1, hE1, hid, hop, by rw [hops, List.length_map], ?_, ?_⟩
      · intro i w hw hnot
        rw [hops, List.getElem?_map, hw]
        simp [resolve_of_not_removed lit f g w hnot]
      · intro i w w1 hw hw1 hne
        rw [hops, List.getElem?_map, hw] at hw1
        simp only [Option.map_some', Option.some.injEq] at hw1
        subst hw1
        exact resolve_ne lit f g w hne
    · exact absurd hin hgone
  · intro E hE hel hnot
    have hmap := map_resolve_of_not_removed lit f g E.operands hnot
    rcases hfate E hE with ⟨E1, hE1, hid, hop, hops⟩ | ⟨_, hop, hlen, hlit, hdiv⟩
    · rw [hmap] at hops
      have : E1 = E := by
        obtain ⟨_, _, _⟩ := E1
        obtain ⟨_, _, _⟩ := E
        simp only [Instruction.mk.injEq]
        exact ⟨hid, hop, hops⟩
      exact this ▸ hE1
    · rw [hmap] at hdiv
      have : eligible E = true := (eligible_iff E).2 ⟨hop, hlen, _, hdiv, hlit⟩
      rw [hel] at this
      cases this

/-- C14 on a chain of divisions whose consumer `%s` survives. -/
theorem C14_frame_of_the_rewrite_witness :
    ∃ g ch, runOnFunction chain = some (g, ch) ∧
      (∀ D ∈ chain, removed chain g D.id →
        D.opcode = Opcode.SDiv ∨ D.opcode = Opcode.UDiv) ∧
      (∀ E ∈ chain, E.id ∈ ids g →
        ∃ E1 ∈ g, E1.id = E.id ∧ E1.opcode = E.opcode ∧
          E1.operands.length = E.operands.length ∧
          (∀ (i : Nat) (w : Value), E.operands[i]? = some w →
            (∀ k, w = Value.inst k → ¬ removed chain g k) → E1.operands[i]? = some w) ∧
          (∀ (i : Nat) (w w1 : Value), E.operands[i]? = some w →
            E1.operands[i]? = some w1 → w1 ≠ w →
            ∃ k, w = Value.inst k ∧ removed chain g k)) ∧
      (∀ E ∈ chain, eligible E = false →
        (∀ k, Value.inst k ∈ E.operands → ¬ removed chain g k) → E ∈ g) :=
  C14_frame_of_the_rewrite chain (by decide)

/-! ## C15: what a redirected slot holds -/

/-- C15: in a function with distinct instruction identities there is, for
every division `D` the pass removes, a literal `lit D.id` whose value is one
and which is the second operand of `D` (operand index 1) when `D` is removed:
it is the second operand `D` has on input when that is a literal, and the
literal that took its place otherwise.  Every operand slot of a surviving
instruction that referred to the result of `D` on input holds that literal
after the pass, a constant. -/
theorem C15_redirected_slot_holds_divisor (f : Function) (hn : (ids f).Nodup) :
    ∃ g ch lit, runOnFunction f = some (g, ch) ∧
      (∀ D ∈ f, removed f g D.id →
        (lit D.id).isOne = true ∧
        (D.operands.map (resolve lit f g))[1]? = some (Value.constInt (lit D.id)) ∧
        (∀ c, D.operands[1]? = some (Value.constInt c) → lit D.id = c)) ∧
      (∀ E ∈ f, E.id ∈ ids g →
        ∃ E1 ∈ g, E1.id = E.id ∧
          ∀ (i : Nat) (D : Instruction), D ∈ f → removed f g D.id →
            E.operands[i]? = some (Value.inst D.id) →
            E1.operands[i]? = some (Value.constInt (lit D.id))) := by
  obtain ⟨g, ch, lit, hrun, hfate⟩ := instruction_fate_exact f hn
  refine ⟨g, ch, lit, hrun, ?_, ?_⟩
  · intro D hD hrem
    rcases hfate D hD with ⟨E1, hE1, hid, _⟩ | ⟨_, _, _, hlit, hdiv⟩
    · exact absurd (hid ▸ mem_ids_of_mem hE1) hrem.2
    · refine ⟨hlit, hdiv, ?_⟩
      intro c hc
      rw [List.getElem?_map, hc] at hdiv
      simp only [Option.map_some', resolve, Option.some.injEq, Value.constInt.injEq] at hdiv
      exact hdiv.symm
  · intro E hE hin
    rcases hfate E hE with ⟨E1, hE1, hid, _, hops⟩ | ⟨hgone, _⟩
    · refine ⟨E1, hE1, hid, ?_⟩
      intro i D _ hrem hslot
      rw [hops, List.getElem?_map, hslot]
      simp [resolve_of_removed lit f g D.id hrem]
    · exact absurd hin hgone

/-- C15 on a chain of divisions whose consumer `%s` survives. -/
theorem C15_redirected_slot_holds_divisor_witness :
    ∃ g ch lit, runOnFunction chain = some (g, ch) ∧
      (∀ D ∈ chain, removed chain g D.id →
        (lit D.id).isOne = true ∧
        (D.operands.map (resolve lit chain g))[1]? = some (Value.constInt (lit D.id)) ∧
        (∀ c, D.operands[1]? = some (Value.constInt c) → lit D.id = c)) ∧
      (∀ E ∈ chain, E.id ∈ ids g →
        ∃ E1 ∈ g, E1.id = E.id ∧
          ∀ (i : Nat) (D : Instruction), D ∈ chain → removed chain g D.id →
            E.operands[i]? = some (Value.inst D.id) →
            E1.operands[i]? = some (Value.constInt (lit D.id))) :=
  C15_redirected_slot_holds_divisor chain (by decide)

end Practice
